import Mathlib

/-!
Verification of a small Python repository: a pair of selection algorithms
(Lomuto partition, iterative median-of-medians, deterministic select and
randomized quickselect, from selection_algorithms.py) and a container
library (Array, Matrix, Stack, Queue, LinkedList, from datastructures.py).

The Python code is embedded shallowly: mutable lists become values of
type List, in-place mutation becomes explicit state passing, Python
exceptions become an explicit error type, and the random number
generator of the randomized selector becomes an explicit stream of
natural numbers.  All definitions are executable.
-/

set_option maxHeartbeats 1600000
set_option linter.unusedSectionVars false

namespace SelAlg

variable {α : Type} [LinearOrder α] [Inhabited α]

/-- Swap the entries at positions i and j, both read from the original
list: the Python tuple swap a[i], a[j] = a[j], a[i]. -/
def listSwap (l : List α) (i j : Nat) : List α :=
  (l.set i (l.getD j default)).set j (l.getD i default)

/-- The scan loop of the Lomuto partition: for j in range(low, high),
whenever a[j] < pivot, swap a[i] with a[j] and advance i.  Returns the
final list together with the final value of the write cursor i. -/
def partLoop (pivot : α) (a : List α) (i j high : Nat) : List α × Nat :=
  if h : j < high then
    if a.getD j default < pivot then partLoop pivot (listSwap a i j) (i + 1) (j + 1) high
    else partLoop pivot a i (j + 1) high
  else (a, i)
termination_by high - j
decreasing_by all_goals omega

/-- Lomuto partition of the inclusive range [low, high] around
a[pivotIndex], from _partition: stash the pivot at position high, run the
scan loop, then swap the pivot into slot i.  Returns the resulting list
and the final index of the pivot. -/
def partition (a : List α) (low high pivotIndex : Nat) : List α × Nat :=
  let a1 := listSwap a pivotIndex high
  let pivot := a1.getD high default
  let r := partLoop pivot a1 low low high
  (listSwap r.1 r.2 high, r.2)

/-- Sort a list of indices by the values of the array at those indices,
as Python group.sort(key=a.__getitem__) does.  The Python sort is stable,
and a stable ascending sort of a fixed list is unique, so the stable
insertionSort produces exactly the list the Python sort produces. -/
def sortByKey (a : List α) (ixs : List Nat) : List Nat :=
  ixs.insertionSort (fun i j => a.getD i default ≤ a.getD j default)

/-- Median index of one block of at most five indices: the index left in
the middle slot after sorting the block by value,
group[len(group) // 2]. -/
def blockMedian (a : List α) (g : List Nat) : Nat :=
  let s := sortByKey a g
  s.getD (s.length / 2) 0

/-- One compression pass of _median_of_medians: cut the index list into
blocks of five (the last block may be shorter), sort each block by value
and keep the index in the middle of each sorted block. -/
def groupMedians (a : List α) : List Nat → List Nat
  | [] => []
  | x1 :: x2 :: x3 :: x4 :: x5 :: rest =>
      blockMedian a [x1, x2, x3, x4, x5] :: groupMedians a rest
  | xs => [blockMedian a xs]

/-- Each compression pass keeps one index per block of five (rounded up). -/
theorem length_groupMedians (a : List α) (ixs : List Nat) :
    (groupMedians a ixs).length ≤ (ixs.length + 4) / 5 := by
  induction ixs using groupMedians.induct a with
  | case1 => simp [groupMedians]
  | case2 x1 x2 x3 x4 x5 rest ih =>
    simp only [groupMedians, List.length_cons]
    omega
  | case3 xs h1 h2 =>
    match xs, h2 with
    | x :: xs, _ =>
      simp only [groupMedians.eq_def, List.length_cons, List.length_nil]
      omega

/-- The while loop of _median_of_medians: keep compressing the index list
until at most five indices remain.  The loop is given explicit fuel so
that the definition is structurally recursive and evaluates by kernel
reduction; every pass strictly shrinks the index list, so a fuel of the
initial length always reaches the fixpoint of the loop, which the lemma
momLoopF_fuel_irrel makes formal. -/
def momLoopF (a : List α) : Nat → List Nat → List Nat
  | 0, ixs => ixs
  | fuel + 1, ixs =>
    if 5 < ixs.length then momLoopF a fuel (groupMedians a ixs) else ixs

/-- The compression loop run with enough fuel to reach its fixpoint. -/
def momLoop (a : List α) (ixs : List Nat) : List Nat :=
  momLoopF a ixs.length ixs

/-- Any fuel of at least the length of the index list gives the same
result, so momLoop computes the exact fixpoint of the source loop. -/
theorem momLoopF_fuel_irrel (a : List α) : ∀ (n f1 f2 : Nat) (ixs : List Nat),
    ixs.length ≤ n → ixs.length ≤ f1 → ixs.length ≤ f2 →
    momLoopF a f1 ixs = momLoopF a f2 ixs := by
  intro n
  induction n with
  | zero =>
    intro f1 f2 ixs hn h1 h2
    have hix : ixs = [] := List.length_eq_zero.mp (by omega)
    subst hix
    cases f1 <;> cases f2 <;> simp [momLoopF]
  | succ n ih =>
    intro f1 f2 ixs hn h1 h2
    match f1, f2 with
    | 0, f2 =>
      have hix : ixs = [] := List.length_eq_zero.mp (by omega)
      subst hix
      cases f2 <;> simp [momLoopF]
    | f1 + 1, 0 =>
      have hix : ixs = [] := List.length_eq_zero.mp (by omega)
      subst hix
      simp [momLoopF]
    | f1 + 1, f2 + 1 =>
      simp only [momLoopF]
      split
      · next hlen =>
        have hgm := length_groupMedians a ixs
        exact ih f1 f2 (groupMedians a ixs) (by omega) (by omega) (by omega)
      · rfl

/-- The function _median_of_medians: gather the indices low..high,
compress them down to at most five representatives, then return the
middle representative after a final sort by value. -/
def medianOfMedians (a : List α) (low high : Nat) : Nat :=
  let ixs := momLoop a (List.range' low (high + 1 - low))
  let s := sortByKey a ixs
  s.getD (s.length / 2) 0

/-- The write cursor produced by the scan loop stays between its initial
value and high. -/
theorem partLoop_idx_bounds (pivot : α) (a : List α) (i j high : Nat) :
    i ≤ (partLoop pivot a i j high).2 ∧
      (partLoop pivot a i j high).2 ≤ i + (high - j) := by
  induction a, i, j, high using partLoop.induct pivot with
  | case1 a i j high h hlt ih =>
    rw [partLoop, dif_pos h, if_pos hlt]
    omega
  | case2 a i j high h hlt ih =>
    rw [partLoop, dif_pos h, if_neg hlt]
    omega
  | case3 a i j high h =>
    rw [partLoop, dif_neg h]
    omega

/-- The index returned by partition lies in [low, high]. -/
theorem partition_idx_bounds (a : List α) (low high pivotIndex : Nat)
    (h : low ≤ high) :
    low ≤ (partition a low high pivotIndex).2 ∧
      (partition a low high pivotIndex).2 ≤ high := by
  unfold partition
  have := partLoop_idx_bounds
    ((listSwap a pivotIndex high).getD high default)
    (listSwap a pivotIndex high) low low high
  simp only
  omega

/-- The main loop of select_deterministic.  The source tests low == high
to stop; along every reachable call low ≤ high holds, where the two
tests agree, and the ≤ form makes the recursion well founded on all
inputs.  Returns the final list together with the returned value. -/
def selectLoop (a : List α) (k low high : Nat) : List α × α :=
  if high ≤ low then (a, a.getD low default)
  else
    let p0 := medianOfMedians a low high
    let r := partition a low high p0
    if k = r.2 then (r.1, r.1.getD k default)
    else if k < r.2 then selectLoop r.1 k low (r.2 - 1)
    else selectLoop r.1 k (r.2 + 1) high
termination_by high - low
decreasing_by
  · have := partition_idx_bounds a low high (medianOfMedians a low high) (by omega)
    omega
  · have := partition_idx_bounds a low high (medianOfMedians a low high) (by omega)
    omega

/-- Deterministic linear-time selection, select_deterministic: runs the
loop over the whole range and returns the selected value. -/
def select_deterministic (a : List α) (k : Nat) : α :=
  (selectLoop a k 0 (a.length - 1)).2

/-- The final state of the list mutated in place by select_deterministic. -/
def select_deterministic_arr (a : List α) (k : Nat) : List α :=
  (selectLoop a k 0 (a.length - 1)).1

/-- The main loop of randomized_quickselect.  The call
random.randint(low, high) is modelled by an explicit stream g of natural
numbers and a step counter t: the pivot of step t is low + g t reduced
modulo the width of the range, which ranges over exactly the values
low..high as g t ranges over the naturals. -/
def quickselectLoop (g : Nat → Nat) (t : Nat) (a : List α) (k low high : Nat) :
    List α × α :=
  if high ≤ low then (a, a.getD low default)
  else
    let p0 := low + g t % (high + 1 - low)
    let r := partition a low high p0
    if k = r.2 then (r.1, r.1.getD k default)
    else if k < r.2 then quickselectLoop g (t + 1) r.1 k low (r.2 - 1)
    else quickselectLoop g (t + 1) r.1 k (r.2 + 1) high
termination_by high - low
decreasing_by
  · have := partition_idx_bounds a low high (low + g t % (high + 1 - low)) (by omega)
    omega
  · have := partition_idx_bounds a low high (low + g t % (high + 1 - low)) (by omega)
    omega

/-- Randomized quickselect, randomized_quickselect, for the pivot stream g. -/
def randomized_quickselect (g : Nat → Nat) (a : List α) (k : Nat) : α :=
  (quickselectLoop g 0 a k 0 (a.length - 1)).2

/-- The final state of the list mutated in place by randomized_quickselect. -/
def randomized_quickselect_arr (g : Nat → Nat) (a : List α) (k : Nat) : List α :=
  (quickselectLoop g 0 a k 0 (a.length - 1)).1

/-- A swap does not change the length of the list. -/
theorem length_listSwap (l : List α) (i j : Nat) :
    (listSwap l i j).length = l.length := by
  simp [listSwap]

/-- After the swap, position i holds the old value of position j. -/
theorem getD_listSwap_fst (l : List α) {i : Nat} (j : Nat) (h : i < l.length) :
    (listSwap l i j).getD i default = l.getD j default := by
  have hlen : i < (listSwap l i j).length := by rw [length_listSwap]; exact h
  rw [List.getD_eq_getElem _ _ hlen]
  unfold listSwap
  by_cases hij : j = i
  · subst hij
    simp [List.getElem_set]
  · rw [List.getElem_set_ne hij, List.getElem_set]
    simp

/-- After the swap, position j holds the old value of position i. -/
theorem getD_listSwap_snd (l : List α) (i : Nat) {j : Nat} (h : j < l.length) :
    (listSwap l i j).getD j default = l.getD i default := by
  have hlen : j < (listSwap l i j).length := by rw [length_listSwap]; exact h
  rw [List.getD_eq_getElem _ _ hlen]
  unfold listSwap
  simp [List.getElem_set]

/-- Positions other than i and j are untouched by the swap. -/
theorem getD_listSwap_other (l : List α) {i j k : Nat} (h1 : k ≠ i) (h2 : k ≠ j) :
    (listSwap l i j).getD k default = l.getD k default := by
  by_cases hk : k < l.length
  · have hlen : k < (listSwap l i j).length := by rw [length_listSwap]; exact hk
    rw [List.getD_eq_getElem _ _ hlen, List.getD_eq_getElem _ _ hk]
    unfold listSwap
    rw [List.getElem_set_ne (Ne.symm h2), List.getElem_set_ne (Ne.symm h1)]
  · rw [List.getD_eq_default _ _ (by rw [length_listSwap]; omega),
      List.getD_eq_default _ _ (by omega)]

/-- A swap of two in-bounds positions permutes the list. -/
theorem listSwap_perm (l : List α) {i j : Nat} (hi : i < l.length) (hj : j < l.length) :
    (listSwap l i j).Perm l := by
  rw [List.perm_iff_count]
  intro b
  have hvj : l.getD j default = l[j] := List.getD_eq_getElem l default hj
  have hvi : l.getD i default = l[i] := List.getD_eq_getElem l default hi
  have hj' : j < (l.set i (l.getD j default)).length := by simpa using hj
  have hci : l[i] = b → 0 < l.count b := fun hb =>
    List.count_pos_iff.mpr (hb ▸ List.getElem_mem hi)
  have hcj : l[j] = b → 0 < l.count b := fun hb =>
    List.count_pos_iff.mpr (hb ▸ List.getElem_mem hj)
  unfold listSwap
  rw [List.count_set _ _ _ _ hj', List.count_set _ _ _ _ hi]
  simp only [List.getElem_set, hvi, hvj]
  by_cases hij : i = j
  · subst hij
    by_cases hib : l[i] = b
    · have := hci hib
      simp only [if_pos rfl, hib, beq_self_eq_true, if_true]
      omega
    · simp [hib]
  · rw [if_neg hij]
    by_cases hib : l[i] = b <;> by_cases hjb : l[j] = b
    · have := hci hib
      simp [hib, hjb]
      try omega
    · have := hci hib
      simp [hib, hjb]
      try omega
    · have := hcj hjb
      simp [hib, hjb]
      try omega
    · simp [hib, hjb]

/-- Every value now at a window position came from some window position:
the relational frame condition for in-place permutations of the
inclusive window [low, high]. -/
def windowPull (low high : Nat) (a b : List α) : Prop :=
  ∀ x, low ≤ x → x ≤ high → ∃ y, low ≤ y ∧ y ≤ high ∧
    b.getD x default = a.getD y default

theorem windowPull_refl (low high : Nat) (a : List α) : windowPull low high a a :=
  fun x hx1 hx2 => ⟨x, hx1, hx2, rfl⟩

theorem windowPull_trans {low high : Nat} {a b c : List α}
    (h1 : windowPull low high a b) (h2 : windowPull low high b c) :
    windowPull low high a c := by
  intro x hx1 hx2
  obtain ⟨y, hy1, hy2, hy3⟩ := h2 x hx1 hx2
  obtain ⟨z, hz1, hz2, hz3⟩ := h1 y hy1 hy2
  exact ⟨z, hz1, hz2, hy3.trans hz3⟩

theorem windowPull_swap {low high i j : Nat} (a : List α)
    (h1 : low ≤ i) (h2 : i ≤ high) (h3 : low ≤ j) (h4 : j ≤ high) :
    windowPull low high a (listSwap a i j) := by
  intro x hx1 hx2
  by_cases hxi : x = i
  · subst hxi
    by_cases hlen : x < a.length
    · exact ⟨j, h3, h4, getD_listSwap_fst a j hlen⟩
    · refine ⟨x, hx1, hx2, ?_⟩
      rw [List.getD_eq_default _ _ (by rw [length_listSwap]; omega),
        List.getD_eq_default _ _ (by omega)]
  · by_cases hxj : x = j
    · subst hxj
      by_cases hlen : x < a.length
      · exact ⟨i, h1, h2, getD_listSwap_snd a i hlen⟩
      · refine ⟨x, hx1, hx2, ?_⟩
        rw [List.getD_eq_default _ _ (by rw [length_listSwap]; omega),
          List.getD_eq_default _ _ (by omega)]
    · exact ⟨x, hx1, hx2, getD_listSwap_other a hxi hxj⟩

/-- Invariants established by the Lomuto scan loop, for the current
write cursor i and the returned cursor iFin: length preservation, the
frame outside [i, high), the window frame for [low, high], permutation,
and the two value regions around the cursor. -/
structure PartLoopOut (pivot : α) (low i high : Nat) (a b : List α) (iFin : Nat) :
    Prop where
  len : b.length = a.length
  frame : ∀ x, x < i ∨ high ≤ x → b.getD x default = a.getD x default
  wpull : windowPull low high a b
  perm : b.Perm a
  postA : ∀ x, low ≤ x → x < iFin → b.getD x default < pivot
  postB : ∀ x, iFin ≤ x → x < high → ¬ b.getD x default < pivot

/-- Correctness of the Lomuto scan loop. -/
theorem partLoop_spec (pivot : α) (low : Nat) :
    ∀ (a : List α) (i j high : Nat),
    low ≤ i → i ≤ j → j ≤ high → high < a.length →
    (∀ x, low ≤ x → x < i → a.getD x default < pivot) →
    (∀ x, i ≤ x → x < j → ¬ a.getD x default < pivot) →
    PartLoopOut pivot low i high a
      (partLoop pivot a i j high).1 (partLoop pivot a i j high).2 := by
  intro a i j high
  induction a, i, j, high using partLoop.induct pivot with
  | case1 a i j high hjh hlt ih =>
    intro hli hij hjhle hlen hA hB
    rw [partLoop, dif_pos hjh, if_pos hlt]
    have hi_len : i < a.length := by omega
    have hj_len : j < a.length := by omega
    have out := ih (by omega) (by omega) (by omega)
      (by rw [length_listSwap]; omega)
      (by
        intro x hx1 hx2
        by_cases hxi : x = i
        · subst hxi
          rw [getD_listSwap_fst a j hi_len]
          exact hlt
        · rw [getD_listSwap_other a hxi (by omega : x ≠ j)]
          exact hA x hx1 (by omega))
      (by
        intro x hx1 hx2
        by_cases hxj : x = j
        · subst hxj
          have hij' : i ≠ x := by omega
          rw [getD_listSwap_snd a i hj_len]
          exact hB i le_rfl (by omega)
        · rw [getD_listSwap_other a (by omega : x ≠ i) hxj]
          exact hB x (by omega) (by omega))
    refine ⟨out.len.trans (length_listSwap a i j), ?_, ?_, ?_, out.postA, out.postB⟩
    · intro x hx
      rw [out.frame x (by omega)]
      exact getD_listSwap_other a (by omega) (by omega)
    · exact windowPull_trans
        (windowPull_swap a hli (by omega) (by omega) (by omega)) out.wpull
    · exact out.perm.trans (listSwap_perm a hi_len hj_len)
  | case2 a i j high hjh hlt ih =>
    intro hli hij hjhle hlen hA hB
    rw [partLoop, dif_pos hjh, if_neg hlt]
    exact ih hli (by omega) (by omega) hlen hA
      (by
        intro x hx1 hx2
        by_cases hxj : x = j
        · subst hxj
          exact hlt
        · exact hB x hx1 (by omega))
  | case3 a i j high hjh =>
    intro hli hij hjhle hlen hA hB
    rw [partLoop, dif_neg hjh]
    have hjeq : j = high := by omega
    exact ⟨rfl, fun x _ => rfl, windowPull_refl low high a, List.Perm.refl a,
      hA, fun x hx1 hx2 => hB x hx1 (by omega)⟩

/-- The partition postcondition: for the returned pivot position p, the
list is only rearranged inside [low, high], positions in [low, p) hold
values strictly below the pivot value and positions in [p, high] hold
values at least the pivot value. -/
structure PartitionOut (low high : Nat) (a b : List α) (p : Nat) : Prop where
  len : b.length = a.length
  lowLe : low ≤ p
  leHigh : p ≤ high
  frame : ∀ x, x < low ∨ high < x → b.getD x default = a.getD x default
  wpull : windowPull low high a b
  perm : b.Perm a
  ltPivot : ∀ x, low ≤ x → x < p → b.getD x default < b.getD p default
  pivotLe : ∀ x, p ≤ x → x ≤ high → b.getD p default ≤ b.getD x default

/-- Correctness of the Lomuto partition. -/
theorem partition_spec (a : List α) (low high pivotIndex : Nat)
    (h1 : low ≤ pivotIndex) (h2 : pivotIndex ≤ high) (h3 : high < a.length) :
    PartitionOut low high a
      (partition a low high pivotIndex).1 (partition a low high pivotIndex).2 := by
  have hlow_high : low ≤ high := le_trans h1 h2
  unfold partition
  simp only
  set a1 := listSwap a pivotIndex high with ha1
  set pivot := a1.getD high default with hpivot
  have hlen1 : a1.length = a.length := length_listSwap a pivotIndex high
  have out := partLoop_spec pivot low a1 low low high le_rfl le_rfl hlow_high
    (by omega) (by intro x hx1 hx2; omega) (by intro x hx1 hx2; omega)
  have bounds := partLoop_idx_bounds pivot a1 low low high
  set b := (partLoop pivot a1 low low high).1 with hb
  set p := (partLoop pivot a1 low low high).2 with hp
  have hple : p ≤ high := by omega
  have hplow : low ≤ p := by omega
  have hbl : b.length = a.length := out.len.trans hlen1
  have hp_len : p < b.length := by omega
  have hhigh_len : high < b.length := by omega
  have hbhigh : b.getD high default = pivot := out.frame high (Or.inr le_rfl)
  have hcp : (listSwap b p high).getD p default = pivot := by
    rw [getD_listSwap_fst b high hp_len]
    exact hbhigh
  refine ⟨(length_listSwap b p high).trans hbl, hplow, hple, ?_, ?_, ?_, ?_, ?_⟩
  · intro x hx
    rw [getD_listSwap_other b (by omega : x ≠ p) (by omega : x ≠ high)]
    rw [out.frame x (by omega)]
    exact getD_listSwap_other a (by omega) (by omega)
  · exact windowPull_trans
      (windowPull_trans (windowPull_swap a h1 h2 hlow_high le_rfl) out.wpull)
      (windowPull_swap b hplow hple hlow_high le_rfl)
  · exact ((listSwap_perm b hp_len hhigh_len).trans out.perm).trans
      (listSwap_perm a (by omega) (by omega))
  · intro x hx1 hx2
    rw [hcp, getD_listSwap_other b (by omega : x ≠ p) (by omega : x ≠ high)]
    exact out.postA x hx1 hx2
  · intro x hx1 hx2
    rw [hcp]
    by_cases hxp : x = p
    · subst hxp
      rw [hcp]
    · by_cases hxh : x = high
      · subst hxh
        rw [getD_listSwap_snd b p (by omega)]
        exact not_lt.mp (out.postB p le_rfl (by omega))
      · rw [getD_listSwap_other b hxp hxh]
        exact not_lt.mp (out.postB x (by omega) (by omega))

/-- The ascending stable sort of a list: the sorted arrangement of the
multiset of its elements. -/
def sortedOf (a : List α) : List α := a.insertionSort (· ≤ ·)

theorem sortedOf_perm (a : List α) : (sortedOf a).Perm a :=
  List.perm_insertionSort _ a

theorem sortedOf_sorted (a : List α) : List.Sorted (· ≤ ·) (sortedOf a) :=
  List.sorted_insertionSort _ a

/-- Read of a list element as a getD with the default value. -/
theorem getElem_eq_getD (l : List α) {n : Nat} (h : n < l.length) :
    l[n] = l.getD n default :=
  (List.getD_eq_getElem l default h).symm

/-- Reads of a sorted list are monotone in the position. -/
theorem sorted_getD_mono (l : List α) (hs : List.Sorted (· ≤ ·) l) {i j : Nat}
    (hij : i ≤ j) (hj : j < l.length) : l.getD i default ≤ l.getD j default := by
  rcases Nat.eq_or_lt_of_le hij with heq | hlt
  · subst heq
    exact le_refl _
  · rw [List.getD_eq_getElem _ _ (by omega), List.getD_eq_getElem _ _ hj]
    have := List.pairwise_iff_get.mp hs ⟨i, by omega⟩ ⟨j, hj⟩ hlt
    simpa using this

/-- The order statistic read off a partially processed array: if the
value at position k is at least every value before it and at most every
value after it, it equals the value at position k of the sorted
arrangement of any list with the same elements. -/
theorem getD_sortedOf_eq (a0 a : List α) (k : Nat) (hperm : a.Perm a0)
    (hk : k < a.length)
    (h1 : ∀ i, i < k → a.getD i default ≤ a.getD k default)
    (h2 : ∀ j, k < j → j < a.length → a.getD k default ≤ a.getD j default) :
    (sortedOf a0).getD k default = a.getD k default := by
  set s := sortedOf a0 with hsdef
  have hs : s.Perm a := (sortedOf_perm a0).trans hperm.symm
  have hsort : List.Sorted (· ≤ ·) s := sortedOf_sorted a0
  have hlens : s.length = a.length := hs.length_eq
  have hks : k < s.length := by omega
  set x := a.getD k default with hx
  have hle : s.getD k default ≤ x := by
    by_contra hgt
    push_neg at hgt
    have hlt : (a.take (k + 1)).length = k + 1 := by
      rw [List.length_take]
      omega
    have hA : List.countP (fun z => decide (z ≤ x)) (a.take (k + 1)) =
        (a.take (k + 1)).length := by
      rw [List.countP_eq_length]
      intro z hz
      obtain ⟨i, hi, hzi⟩ := List.mem_iff_getElem.mp hz
      have hik1 : i < k + 1 := by rw [hlt] at hi; exact hi
      have hia : i < a.length := by omega
      rw [← hzi, List.getElem_take, getElem_eq_getD a hia]
      simp only [decide_eq_true_eq]
      rcases Nat.lt_or_ge i k with hik | hik
      · exact h1 i hik
      · have : i = k := by omega
        subst this
        exact le_refl _
    have hcount_a : k + 1 ≤ List.countP (fun z => decide (z ≤ x)) a := by
      conv_rhs => rw [← List.take_append_drop (k + 1) a]
      rw [List.countP_append, hA, hlt]
      omega
    have hcount_s : List.countP (fun z => decide (z ≤ x)) s ≤ k := by
      conv_lhs => rw [← List.take_append_drop k s]
      rw [List.countP_append]
      have hz0 : List.countP (fun z => decide (z ≤ x)) (s.drop k) = 0 := by
        rw [List.countP_eq_zero]
        intro z hz
        obtain ⟨i, hi, hzi⟩ := List.mem_iff_getElem.mp hz
        have hki : k + i < s.length := by
          have := List.length_drop k s
          omega
        rw [← hzi, List.getElem_drop, getElem_eq_getD s hki]
        simp only [decide_eq_true_eq, not_le]
        exact lt_of_lt_of_le hgt (sorted_getD_mono s hsort (by omega) hki)
      have ht : List.countP (fun z => decide (z ≤ x)) (s.take k) ≤ k := by
        calc List.countP (fun z => decide (z ≤ x)) (s.take k)
            ≤ (s.take k).length := List.countP_le_length _
          _ ≤ k := by rw [List.length_take]; omega
      omega
    have hpc := hs.countP_eq (fun z => decide (z ≤ x))
    omega
  have hge : x ≤ s.getD k default := by
    by_contra hgt
    push_neg at hgt
    have hA : List.countP (fun z => decide (x ≤ z)) (a.drop k) =
        (a.drop k).length := by
      rw [List.countP_eq_length]
      intro z hz
      obtain ⟨i, hi, hzi⟩ := List.mem_iff_getElem.mp hz
      have hki : k + i < a.length := by
        rw [List.length_drop] at hi
        omega
      rw [← hzi, List.getElem_drop, getElem_eq_getD a hki]
      simp only [decide_eq_true_eq]
      rcases Nat.eq_zero_or_pos i with hi0 | hi0
      · subst hi0
        exact le_of_eq rfl
      · exact h2 (k + i) (by omega) hki
    have hcount_a : a.length - k ≤ List.countP (fun z => decide (x ≤ z)) a := by
      conv_rhs => rw [← List.take_append_drop k a]
      rw [List.countP_append, hA, List.length_drop]
      omega
    have hcount_s : List.countP (fun z => decide (x ≤ z)) s ≤ s.length - (k + 1) := by
      conv_lhs => rw [← List.take_append_drop (k + 1) s]
      rw [List.countP_append]
      have hz0 : List.countP (fun z => decide (x ≤ z)) (s.take (k + 1)) = 0 := by
        rw [List.countP_eq_zero]
        intro z hz
        obtain ⟨i, hi, hzi⟩ := List.mem_iff_getElem.mp hz
        have hik1 : i < k + 1 := by
          have := List.length_take (k + 1) s
          omega
        have his : i < s.length := by omega
        rw [← hzi, List.getElem_take, getElem_eq_getD s his]
        simp only [decide_eq_true_eq, not_le]
        exact lt_of_le_of_lt (sorted_getD_mono s hsort (by omega) hks) hgt
      have ht : List.countP (fun z => decide (x ≤ z)) (s.drop (k + 1)) ≤
          s.length - (k + 1) := by
        calc List.countP (fun z => decide (x ≤ z)) (s.drop (k + 1))
            ≤ (s.drop (k + 1)).length := List.countP_le_length _
          _ = s.length - (k + 1) := List.length_drop _ _
      omega
    have hpc := hs.countP_eq (fun z => decide (x ≤ z))
    omega
  exact le_antisymm hle hge

/-- All positions before low hold values at most every value from
position low on: the prefix already known to hold the smallest low
elements of the array. -/
def LowerSep (low : Nat) (a : List α) : Prop :=
  ∀ i j, i < low → low ≤ j → j < a.length → a.getD i default ≤ a.getD j default

/-- All positions after high hold values at least every value at
positions up to high. -/
def UpperSep (high : Nat) (a : List α) : Prop :=
  ∀ i j, i ≤ high → high < j → j < a.length → a.getD i default ≤ a.getD j default

/-- Partitioning inside [low, high] preserves the lower separation at low. -/
theorem lowerSep_preserve {low high : Nat} {a b : List α} {p : Nat}
    (po : PartitionOut low high a b p) (hlen : high < a.length)
    (hA : LowerSep low a) : LowerSep low b := by
  intro i j hi hj hjlen
  rw [po.frame i (Or.inl (by omega))]
  rcases le_or_lt j high with hjh | hjh
  · obtain ⟨y, hy1, hy2, hy3⟩ := po.wpull j hj hjh
    rw [hy3]
    exact hA i y hi hy1 (by omega)
  · rw [po.frame j (Or.inr hjh)]
    exact hA i j hi hj (by rw [po.len] at hjlen; omega)

/-- Partitioning inside [low, high] preserves the upper separation at high. -/
theorem upperSep_preserve {low high : Nat} {a b : List α} {p : Nat}
    (po : PartitionOut low high a b p) (hlen : high < a.length)
    (hB : UpperSep high a) : UpperSep high b := by
  intro i j hi hj hjlen
  have hjlen' : j < a.length := by rw [po.len] at hjlen; omega
  rw [po.frame j (Or.inr hj)]
  rcases Nat.lt_or_ge i low with hil | hil
  · rw [po.frame i (Or.inl hil)]
    exact hB i j hi hj hjlen'
  · obtain ⟨y, hy1, hy2, hy3⟩ := po.wpull i hil hi
    rw [hy3]
    exact hB y j hy2 hj hjlen'

/-- After partitioning, the upper separation can be tightened to the
position just below the pivot: used when the search narrows to the left
part [low, p-1]. -/
theorem upperSep_shrink {low high : Nat} {a b : List α} {p : Nat}
    (po : PartitionOut low high a b p) (hlen : high < a.length)
    (hp0 : 0 < p)
    (hA : LowerSep low a) (hB : UpperSep high a) : UpperSep (p - 1) b := by
  have hlowp := po.lowLe
  have hphigh := po.leHigh
  intro i j hi hj hjlen
  have hjlen' : j < a.length := by rw [po.len] at hjlen; omega
  have hjp : p ≤ j := by omega
  have hip : i < p := by omega
  rcases le_or_lt j high with hjh | hjh
  · have hjge : b.getD p default ≤ b.getD j default := po.pivotLe j hjp hjh
    rcases Nat.lt_or_ge i low with hil | hil
    · rw [po.frame i (Or.inl hil)]
      obtain ⟨y, hy1, hy2, hy3⟩ := po.wpull j (by omega) hjh
      rw [hy3]
      exact hA i y hil hy1 (by omega)
    · exact le_trans (le_of_lt (po.ltPivot i hil hip)) hjge
  · rw [po.frame j (Or.inr hjh)]
    rcases Nat.lt_or_ge i low with hil | hil
    · rw [po.frame i (Or.inl hil)]
      exact hB i j (by omega) hjh hjlen'
    · obtain ⟨y, hy1, hy2, hy3⟩ := po.wpull i hil (by omega)
      rw [hy3]
      exact hB y j hy2 hjh hjlen'

/-- After partitioning, the lower separation can be advanced to the
position just above the pivot: used when the search narrows to the
right part [p+1, high]. -/
theorem lowerSep_grow {low high : Nat} {a b : List α} {p : Nat}
    (po : PartitionOut low high a b p) (hlen : high < a.length)
    (hA : LowerSep low a) (hB : UpperSep high a) : LowerSep (p + 1) b := by
  have hlowp := po.lowLe
  intro i j hi hj hjlen
  have hjlen' : j < a.length := by rw [po.len] at hjlen; omega
  have hip : i ≤ p := by omega
  have hple : p ≤ high := po.leHigh
  rcases le_or_lt j high with hjh | hjh
  · have hjge : b.getD p default ≤ b.getD j default := po.pivotLe j (by omega) hjh
    rcases Nat.lt_or_ge i low with hil | hil
    · rw [po.frame i (Or.inl hil)]
      obtain ⟨y, hy1, hy2, hy3⟩ := po.wpull j (by omega) hjh
      rw [hy3]
      exact hA i y hil hy1 (by omega)
    · rcases Nat.lt_or_ge i p with hipp | hipp
      · exact le_trans (le_of_lt (po.ltPivot i hil hipp)) hjge
      · have : i = p := by omega
        subst this
        exact hjge
  · rw [po.frame j (Or.inr hjh)]
    rcases Nat.lt_or_ge i low with hil | hil
    · rw [po.frame i (Or.inl hil)]
      exact hB i j (by omega) hjh hjlen'
    · obtain ⟨y, hy1, hy2, hy3⟩ := po.wpull i hil (by omega)
      rw [hy3]
      exact hB y j hy2 hjh hjlen'


/-- The middle slot of a nonempty list is one of its elements. -/
theorem getD_mid_mem (s : List Nat) (h : s ≠ []) : s.getD (s.length / 2) 0 ∈ s := by
  have h0 : 0 < s.length := List.length_pos.mpr h
  have hhalf : s.length / 2 < s.length := by omega
  rw [List.getD_eq_getElem s 0 hhalf]
  exact List.getElem_mem hhalf

/-- Sorting a nonempty index list gives a nonempty list. -/
theorem sortByKey_ne_nil (a : List α) (l : List Nat) (h : l ≠ []) :
    sortByKey a l ≠ [] := by
  intro hc
  have hlen : (sortByKey a l).length = l.length := List.length_insertionSort _ _
  rw [hc] at hlen
  exact h (List.length_eq_zero.mp hlen.symm)

/-- The middle slot of the sorted index list is one of the input indices. -/
theorem sortByKey_getD_mid_mem (a : List α) (l : List Nat) (h : l ≠ []) :
    (sortByKey a l).getD ((sortByKey a l).length / 2) 0 ∈ l := by
  have hmem := getD_mid_mem (sortByKey a l) (sortByKey_ne_nil a l h)
  exact (List.mem_insertionSort _).mp hmem

/-- The median index of a nonempty block is one of the block indices. -/
theorem blockMedian_mem (a : List α) (g : List Nat) (hg : g ≠ []) :
    blockMedian a g ∈ g :=
  sortByKey_getD_mid_mem a g hg

/-- Every index kept by a compression pass occurs in the input indices. -/
theorem groupMedians_subset (a : List α) :
    ∀ ixs : List Nat, groupMedians a ixs ⊆ ixs := by
  intro ixs
  induction ixs using groupMedians.induct a with
  | case1 => simp [groupMedians]
  | case2 x1 x2 x3 x4 x5 rest ih =>
    intro x hx
    rw [groupMedians] at hx
    rcases List.mem_cons.mp hx with h | h
    · have hm := blockMedian_mem a [x1, x2, x3, x4, x5] (by simp)
      rw [← h] at hm
      simp only [List.mem_cons] at hm ⊢
      tauto
    · have := ih h
      simp only [List.mem_cons] at this ⊢
      tauto
  | case3 xs h1 h2 =>
    intro x hx
    match xs, h1, h2 with
    | y :: ys, _, _ =>
      rw [groupMedians.eq_def] at hx
      simp only at hx
      have h := List.mem_singleton.mp hx
      rw [h]
      exact blockMedian_mem a (y :: ys) (by simp)

/-- The fuelled compression loop only keeps indices of its input. -/
theorem momLoopF_subset (a : List α) :
    ∀ (fuel : Nat) (ixs : List Nat), momLoopF a fuel ixs ⊆ ixs := by
  intro fuel
  induction fuel with
  | zero =>
    intro ixs
    simp [momLoopF]
  | succ fuel ih =>
    intro ixs
    simp only [momLoopF]
    split
    · exact (ih (groupMedians a ixs)).trans (groupMedians_subset a ixs)
    · exact fun x hx => hx

/-- A compression pass of a nonempty index list is nonempty. -/
theorem groupMedians_ne_nil (a : List α) (ixs : List Nat) (h : ixs ≠ []) :
    groupMedians a ixs ≠ [] := by
  rw [groupMedians.eq_def]
  split
  · exact absurd rfl h
  · simp
  · simp

/-- The fuelled compression loop of a nonempty index list is nonempty. -/
theorem momLoopF_ne_nil (a : List α) :
    ∀ (fuel : Nat) (ixs : List Nat), ixs ≠ [] → momLoopF a fuel ixs ≠ [] := by
  intro fuel
  induction fuel with
  | zero =>
    intro ixs h
    simpa [momLoopF] using h
  | succ fuel ih =>
    intro ixs h
    simp only [momLoopF]
    split
    · exact ih (groupMedians a ixs) (groupMedians_ne_nil a ixs h)
    · exact h

/-- The pivot index returned by _median_of_medians lies in [low, high]. -/
theorem medianOfMedians_mem (a : List α) (low high : Nat) (h : low ≤ high) :
    low ≤ medianOfMedians a low high ∧ medianOfMedians a low high ≤ high := by
  have hlen0 : (List.range' low (high + 1 - low)).length = high + 1 - low :=
    List.length_range' low 1 (high + 1 - low)
  have hne : List.range' low (high + 1 - low) ≠ [] := by
    intro hc
    rw [hc] at hlen0
    simp only [List.length_nil] at hlen0
    omega
  have hm0 : momLoop a (List.range' low (high + 1 - low)) ≠ [] :=
    momLoopF_ne_nil a _ _ hne
  have hmem : medianOfMedians a low high ∈
      momLoop a (List.range' low (high + 1 - low)) :=
    sortByKey_getD_mid_mem a _ hm0
  have hz := momLoopF_subset a _ _ hmem
  rw [List.mem_range'_1] at hz
  omega

/-- One unfolding of the deterministic selection loop in its recursive case. -/
theorem selectLoop_eq (a : List α) (k low high : Nat) (h : ¬ high ≤ low) :
    selectLoop a k low high =
      if k = (partition a low high (medianOfMedians a low high)).2 then
        ((partition a low high (medianOfMedians a low high)).1,
          (partition a low high (medianOfMedians a low high)).1.getD k default)
      else if k < (partition a low high (medianOfMedians a low high)).2 then
        selectLoop (partition a low high (medianOfMedians a low high)).1 k low
          ((partition a low high (medianOfMedians a low high)).2 - 1)
      else
        selectLoop (partition a low high (medianOfMedians a low high)).1 k
          ((partition a low high (medianOfMedians a low high)).2 + 1) high := by
  rw [selectLoop, if_neg h]

/-- One unfolding of the randomized selection loop in its recursive case. -/
theorem quickselectLoop_eq (g : Nat → Nat) (t : Nat) (a : List α)
    (k low high : Nat) (h : ¬ high ≤ low) :
    quickselectLoop g t a k low high =
      if k = (partition a low high (low + g t % (high + 1 - low))).2 then
        ((partition a low high (low + g t % (high + 1 - low))).1,
          (partition a low high (low + g t % (high + 1 - low))).1.getD k default)
      else if k < (partition a low high (low + g t % (high + 1 - low))).2 then
        quickselectLoop g (t + 1)
          (partition a low high (low + g t % (high + 1 - low))).1 k low
          ((partition a low high (low + g t % (high + 1 - low))).2 - 1)
      else
        quickselectLoop g (t + 1)
          (partition a low high (low + g t % (high + 1 - low))).1 k
          ((partition a low high (low + g t % (high + 1 - low))).2 + 1) high := by
  rw [quickselectLoop, if_neg h]

/-- Correctness of the deterministic selection loop: the result list is
a permutation of the reference list a0 and the returned value is the
entry at position k of the sorted arrangement of a0. -/
theorem selectLoop_spec (a0 : List α) :
    ∀ (n : Nat) (a : List α) (k low high : Nat), high - low ≤ n →
    a.Perm a0 → low ≤ k → k ≤ high → high < a.length →
    LowerSep low a → UpperSep high a →
    (selectLoop a k low high).1.Perm a0 ∧
      (selectLoop a k low high).2 = (sortedOf a0).getD k default := by
  intro n
  induction n with
  | zero =>
    intro a k low high hn hperm hlk hkh hlen hA hB
    have hhl : high ≤ low := by omega
    rw [selectLoop, if_pos hhl]
    have hkl : k = low := by omega
    subst hkl
    exact ⟨hperm, (getD_sortedOf_eq a0 a k hperm (by omega)
      (fun i hi => hA i k hi le_rfl (by omega))
      (fun j hj hjlen => hB k j (by omega) (by omega) hjlen)).symm⟩
  | succ n ih =>
    intro a k low high hn hperm hlk hkh hlen hA hB
    by_cases hhl : high ≤ low
    · rw [selectLoop, if_pos hhl]
      have hkl : k = low := by omega
      subst hkl
      exact ⟨hperm, (getD_sortedOf_eq a0 a k hperm (by omega)
        (fun i hi => hA i k hi le_rfl (by omega))
        (fun j hj hjlen => hB k j (by omega) (by omega) hjlen)).symm⟩
    · rw [selectLoop_eq a k low high hhl]
      have hmm := medianOfMedians_mem a low high (by omega)
      have po := partition_spec a low high (medianOfMedians a low high)
        (by omega) (by omega) hlen
      set r := partition a low high (medianOfMedians a low high) with hr
      have hplow := po.lowLe
      have hphigh := po.leHigh
      have hrlen : r.1.length = a.length := po.len
      by_cases hkp : k = r.2
      · rw [if_pos hkp]
        have hpermr : r.1.Perm a0 := po.perm.trans hperm
        have hAr := lowerSep_preserve po hlen hA
        have hBr := upperSep_preserve po hlen hB
        have hklen : k < r.1.length := by omega
        refine ⟨hpermr, ?_⟩
        refine (getD_sortedOf_eq a0 r.1 k hpermr hklen ?_ ?_).symm
        · intro i hi
          rcases Nat.lt_or_ge i low with hil | hil
          · exact hAr i k hil (by omega) hklen
          · rw [hkp]
            exact le_of_lt (po.ltPivot i hil (by omega))
        · intro j hj hjlen
          rcases le_or_lt j high with hjh | hjh
          · rw [hkp]
            exact po.pivotLe j (by omega) hjh
          · exact hBr k j (by omega) hjh hjlen
      · rw [if_neg hkp]
        by_cases hklt : k < r.2
        · rw [if_pos hklt]
          exact ih r.1 k low (r.2 - 1) (by omega) (po.perm.trans hperm) hlk
            (by omega) (by omega)
            (lowerSep_preserve po hlen hA)
            (upperSep_shrink po hlen (by omega) hA hB)
        · rw [if_neg hklt]
          exact ih r.1 k (r.2 + 1) high (by omega) (po.perm.trans hperm)
            (by omega) (by omega) (by omega)
            (lowerSep_grow po hlen hA hB)
            (upperSep_preserve po hlen hB)

/-- Correctness of the randomized selection loop, for every pivot stream
g and every step counter t. -/
theorem quickselectLoop_spec (a0 : List α) (g : Nat → Nat) :
    ∀ (n t : Nat) (a : List α) (k low high : Nat), high - low ≤ n →
    a.Perm a0 → low ≤ k → k ≤ high → high < a.length →
    LowerSep low a → UpperSep high a →
    (quickselectLoop g t a k low high).1.Perm a0 ∧
      (quickselectLoop g t a k low high).2 = (sortedOf a0).getD k default := by
  intro n
  induction n with
  | zero =>
    intro t a k low high hn hperm hlk hkh hlen hA hB
    have hhl : high ≤ low := by omega
    rw [quickselectLoop, if_pos hhl]
    have hkl : k = low := by omega
    subst hkl
    exact ⟨hperm, (getD_sortedOf_eq a0 a k hperm (by omega)
      (fun i hi => hA i k hi le_rfl (by omega))
      (fun j hj hjlen => hB k j (by omega) (by omega) hjlen)).symm⟩
  | succ n ih =>
    intro t a k low high hn hperm hlk hkh hlen hA hB
    by_cases hhl : high ≤ low
    · rw [quickselectLoop, if_pos hhl]
      have hkl : k = low := by omega
      subst hkl
      exact ⟨hperm, (getD_sortedOf_eq a0 a k hperm (by omega)
        (fun i hi => hA i k hi le_rfl (by omega))
        (fun j hj hjlen => hB k j (by omega) (by omega) hjlen)).symm⟩
    · rw [quickselectLoop_eq g t a k low high hhl]
      have hmod : g t % (high + 1 - low) < high + 1 - low :=
        Nat.mod_lt _ (by omega)
      have po := partition_spec a low high (low + g t % (high + 1 - low))
        (by omega) (by omega) hlen
      set r := partition a low high (low + g t % (high + 1 - low)) with hr
      have hplow := po.lowLe
      have hphigh := po.leHigh
      have hrlen : r.1.length = a.length := po.len
      by_cases hkp : k = r.2
      · rw [if_pos hkp]
        have hpermr : r.1.Perm a0 := po.perm.trans hperm
        have hAr := lowerSep_preserve po hlen hA
        have hBr := upperSep_preserve po hlen hB
        have hklen : k < r.1.length := by omega
        refine ⟨hpermr, ?_⟩
        refine (getD_sortedOf_eq a0 r.1 k hpermr hklen ?_ ?_).symm
        · intro i hi
          rcases Nat.lt_or_ge i low with hil | hil
          · exact hAr i k hil (by omega) hklen
          · rw [hkp]
            exact le_of_lt (po.ltPivot i hil (by omega))
        · intro j hj hjlen
          rcases le_or_lt j high with hjh | hjh
          · rw [hkp]
            exact po.pivotLe j (by omega) hjh
          · exact hBr k j (by omega) hjh hjlen
      · rw [if_neg hkp]
        by_cases hklt : k < r.2
        · rw [if_pos hklt]
          exact ih (t + 1) r.1 k low (r.2 - 1) (by omega) (po.perm.trans hperm)
            hlk (by omega) (by omega)
            (lowerSep_preserve po hlen hA)
            (upperSep_shrink po hlen (by omega) hA hB)
        · rw [if_neg hklt]
          exact ih (t + 1) r.1 k (r.2 + 1) high (by omega) (po.perm.trans hperm)
            (by omega) (by omega) (by omega)
            (lowerSep_grow po hlen hA hB)
            (upperSep_preserve po hlen hB)

/-- The window of positions low..high of a list. -/
def window (a : List α) (low high : Nat) : List α := (a.take (high + 1)).drop low

/-- A permutation that fixes all positions outside [low, high] pointwise
permutes the window [low, high]. -/
theorem window_perm_of_perm_frame {a b : List α} {low high : Nat}
    (hlh : low ≤ high) (hhigh : high < a.length)
    (hlen : b.length = a.length) (hperm : b.Perm a)
    (hframe : ∀ x, x < low ∨ high < x → b.getD x default = a.getD x default) :
    (window b low high).Perm (window a low high) := by
  have htake : b.take low = a.take low := by
    apply List.ext_getElem
    · simp [List.length_take, hlen]
    · intro n h1 h2
      have hn : n < low := by
        have := List.length_take low b
        omega
      have hnb : n < b.length := by omega
      have hna : n < a.length := by omega
      rw [List.getElem_take, List.getElem_take, getElem_eq_getD b hnb,
        getElem_eq_getD a hna]
      exact hframe n (Or.inl hn)
  have hdrop : b.drop (high + 1) = a.drop (high + 1) := by
    apply List.ext_getElem
    · simp [List.length_drop, hlen]
    · intro n h1 h2
      have hnb : high + 1 + n < b.length := by
        have := List.length_drop (high + 1) b
        omega
      have hna : high + 1 + n < a.length := by omega
      rw [List.getElem_drop, List.getElem_drop, getElem_eq_getD b hnb,
        getElem_eq_getD a hna]
      exact hframe (high + 1 + n) (Or.inr (by omega))
  have hdecomp : ∀ l : List α,
      l.take low ++ (window l low high ++ l.drop (high + 1)) = l := by
    intro l
    have h2 : (l.take (high + 1)).take low = l.take low := by
      rw [List.take_take, Nat.min_eq_left (by omega : low ≤ high + 1)]
    calc l.take low ++ (window l low high ++ l.drop (high + 1))
        = (l.take (high + 1)).take low ++ ((l.take (high + 1)).drop low
            ++ l.drop (high + 1)) := by rw [h2]; rfl
      _ = ((l.take (high + 1)).take low ++ (l.take (high + 1)).drop low)
            ++ l.drop (high + 1) := by rw [List.append_assoc]
      _ = l.take (high + 1) ++ l.drop (high + 1) := by
            rw [List.take_append_drop]
      _ = l := List.take_append_drop _ _
  have hp : (b.take low ++ (window b low high ++ b.drop (high + 1))).Perm
      (a.take low ++ (window a low high ++ a.drop (high + 1))) := by
    rw [hdecomp b, hdecomp a]
    exact hperm
  rw [htake] at hp
  have hp2 := (List.perm_append_left_iff (a.take low)).mp hp
  rw [hdrop] at hp2
  exact (List.perm_append_right_iff (a.drop (high + 1))).mp hp2

/-- C1: for every list over a linearly ordered type with a position k in
range, select_deterministic returns the value at position k of the
sorted arrangement of the elements of a (the k-th order statistic), and
randomized_quickselect returns that same value for every pivot stream g,
that is, for every possible sequence of random pivot choices. -/
theorem C1_selection_correct (a : List α) (k : Nat) (hk : k < a.length) :
    select_deterministic a k = (sortedOf a).getD k default ∧
      ∀ g : Nat → Nat, randomized_quickselect g a k = (sortedOf a).getD k default := by
  constructor
  · exact (selectLoop_spec a (a.length - 1) a k 0 (a.length - 1) (by omega)
      (List.Perm.refl a) (by omega) (by omega) (by omega)
      (fun i j hi _ _ => absurd hi (by omega))
      (fun i j _ hj hjlen => absurd hjlen (by omega))).2
  · intro g
    exact (quickselectLoop_spec a g (a.length - 1) 0 a k 0 (a.length - 1)
      (by omega) (List.Perm.refl a) (by omega) (by omega) (by omega)
      (fun i j hi _ _ => absurd hi (by omega))
      (fun i j _ hj hjlen => absurd hjlen (by omega))).2

/-- Witness for C1 at a concrete input. -/
theorem C1_selection_correct_witness :
    2 < ([3, 1, 2] : List Nat).length ∧
      (select_deterministic ([3, 1, 2] : List Nat) 2 =
          (sortedOf ([3, 1, 2] : List Nat)).getD 2 default ∧
        ∀ g : Nat → Nat, randomized_quickselect g ([3, 1, 2] : List Nat) 2 =
          (sortedOf ([3, 1, 2] : List Nat)).getD 2 default) :=
  ⟨by decide, C1_selection_correct [3, 1, 2] 2 (by decide)⟩

/-- C2: for valid bounds low ≤ pivotIndex ≤ high < length, the returned
index p lies in [low, high], every element at positions [low, p-1] of
the resulting list is strictly less than the element at p, and every
element at positions [p, high] is at least the element at p. -/
theorem C2_partition_post (a : List α) (low high pivotIndex : Nat)
    (h1 : low ≤ pivotIndex) (h2 : pivotIndex ≤ high) (h3 : high < a.length) :
    low ≤ (partition a low high pivotIndex).2 ∧
      (partition a low high pivotIndex).2 ≤ high ∧
      (∀ x, low ≤ x → x < (partition a low high pivotIndex).2 →
        (partition a low high pivotIndex).1.getD x default <
          (partition a low high pivotIndex).1.getD
            (partition a low high pivotIndex).2 default) ∧
      (∀ x, (partition a low high pivotIndex).2 ≤ x → x ≤ high →
        (partition a low high pivotIndex).1.getD
            (partition a low high pivotIndex).2 default ≤
          (partition a low high pivotIndex).1.getD x default) := by
  have po := partition_spec a low high pivotIndex h1 h2 h3
  exact ⟨po.lowLe, po.leHigh, po.ltPivot, po.pivotLe⟩

/-- Witness for C2 at a concrete input. -/
theorem C2_partition_post_witness :
    (0 : Nat) ≤ 1 ∧ 1 ≤ 2 ∧ 2 < ([3, 1, 2] : List Nat).length ∧
      (0 ≤ (partition ([3, 1, 2] : List Nat) 0 2 1).2 ∧
        (partition ([3, 1, 2] : List Nat) 0 2 1).2 ≤ 2 ∧
        (∀ x, 0 ≤ x → x < (partition ([3, 1, 2] : List Nat) 0 2 1).2 →
          (partition ([3, 1, 2] : List Nat) 0 2 1).1.getD x default <
            (partition ([3, 1, 2] : List Nat) 0 2 1).1.getD
              (partition ([3, 1, 2] : List Nat) 0 2 1).2 default) ∧
        (∀ x, (partition ([3, 1, 2] : List Nat) 0 2 1).2 ≤ x → x ≤ 2 →
          (partition ([3, 1, 2] : List Nat) 0 2 1).1.getD
              (partition ([3, 1, 2] : List Nat) 0 2 1).2 default ≤
            (partition ([3, 1, 2] : List Nat) 0 2 1).1.getD x default)) :=
  ⟨by decide, by decide, by decide,
    C2_partition_post [3, 1, 2] 0 2 1 (by decide) (by decide) (by decide)⟩

/-- C3 counterexample: on the 26-element list 0,1,...,24,1000 with
low = 0 and high = 25, _median_of_medians returns index 25, whose value
1000 is the unique maximum of the range, so exactly 1 of the 26 elements
(under 4 percent, far below roughly 30 percent) is at least the pivot
value.  The iterative compression loses the classical pivot-quality
guarantee as soon as more than one compression pass runs. -/
theorem C3_counterexample :
    medianOfMedians (List.range 25 ++ [1000]) 0 25 = 25 ∧
      ((List.range 26).filter
        (fun i => (List.range 25 ++ [1000]).getD 25 0 ≤
          (List.range 25 ++ [1000]).getD i 0)).length = 1 := by
  constructor
  · decide
  · decide

/-- C3 amended: for low ≤ high, _median_of_medians returns an index
within [low, high]; the roughly-30-percent quality guarantee claimed for
the returned pivot does not hold in general (see the counterexample). -/
theorem C3_amended_pivot_in_range (a : List α) (low high : Nat) (h : low ≤ high) :
    low ≤ medianOfMedians a low high ∧ medianOfMedians a low high ≤ high :=
  medianOfMedians_mem a low high h

/-- Witness for the amended C3 at a concrete input. -/
theorem C3_amended_pivot_in_range_witness :
    (0 : Nat) ≤ 3 ∧
      (0 ≤ medianOfMedians ([5, 4, 3, 2, 1] : List Nat) 0 3 ∧
        medianOfMedians ([5, 4, 3, 2, 1] : List Nat) 0 3 ≤ 3) :=
  ⟨by decide, C3_amended_pivot_in_range [5, 4, 3, 2, 1] 0 3 (by decide)⟩

/-- C9: the partition only rearranges the subrange [low, high]: the
multiset of values at window positions is unchanged (the windows are
permutations of each other), every position outside [low, high] is
untouched, the whole list is a permutation of the original, and both
selection functions leave the whole array a permutation of its original
contents. -/
theorem C9_frame_effects (a : List α) (low high pivotIndex : Nat)
    (h1 : low ≤ pivotIndex) (h2 : pivotIndex ≤ high) (h3 : high < a.length) :
    (window (partition a low high pivotIndex).1 low high).Perm
        (window a low high) ∧
      (∀ x, x < low ∨ high < x →
        (partition a low high pivotIndex).1.getD x default = a.getD x default) ∧
      (partition a low high pivotIndex).1.Perm a ∧
      (∀ k, k < a.length → (select_deterministic_arr a k).Perm a) ∧
      (∀ (g : Nat → Nat) k, k < a.length →
        (randomized_quickselect_arr g a k).Perm a) := by
  have po := partition_spec a low high pivotIndex h1 h2 h3
  refine ⟨?_, po.frame, po.perm, ?_, ?_⟩
  · exact window_perm_of_perm_frame (by omega) h3 po.len po.perm po.frame
  · intro k hk
    exact (selectLoop_spec a (a.length - 1) a k 0 (a.length - 1) (by omega)
      (List.Perm.refl a) (by omega) (by omega) (by omega)
      (fun i j hi _ _ => absurd hi (by omega))
      (fun i j _ hj hjlen => absurd hjlen (by omega))).1
  · intro g k hk
    exact (quickselectLoop_spec a g (a.length - 1) 0 a k 0 (a.length - 1)
      (by omega) (List.Perm.refl a) (by omega) (by omega) (by omega)
      (fun i j hi _ _ => absurd hi (by omega))
      (fun i j _ hj hjlen => absurd hjlen (by omega))).1

/-- Witness for C9 at a concrete input. -/
theorem C9_frame_effects_witness :
    (1 : Nat) ≤ 2 ∧ 2 ≤ 3 ∧ 3 < ([9, 4, 8, 5, 7] : List Nat).length ∧
      ((window (partition ([9, 4, 8, 5, 7] : List Nat) 1 3 2).1 1 3).Perm
          (window ([9, 4, 8, 5, 7] : List Nat) 1 3) ∧
        (∀ x, x < 1 ∨ 3 < x →
          (partition ([9, 4, 8, 5, 7] : List Nat) 1 3 2).1.getD x default =
            ([9, 4, 8, 5, 7] : List Nat).getD x default) ∧
        (partition ([9, 4, 8, 5, 7] : List Nat) 1 3 2).1.Perm [9, 4, 8, 5, 7] ∧
        (∀ k, k < ([9, 4, 8, 5, 7] : List Nat).length →
          (select_deterministic_arr ([9, 4, 8, 5, 7] : List Nat) k).Perm
            [9, 4, 8, 5, 7]) ∧
        (∀ (g : Nat → Nat) k, k < ([9, 4, 8, 5, 7] : List Nat).length →
          (randomized_quickselect_arr g ([9, 4, 8, 5, 7] : List Nat) k).Perm
            [9, 4, 8, 5, 7])) :=
  ⟨by decide, by decide, by decide,
    C9_frame_effects [9, 4, 8, 5, 7] 1 3 2 (by decide) (by decide) (by decide)⟩

end SelAlg

namespace DS

/-- The error taxonomy of the container library: index out of range,
capacity exceeded, empty collection.  Python raises IndexError or
OverflowError; the spec groups them into these three kinds. -/
inductive Err where
  | indexOutOfRange
  | capacityExceeded
  | emptyCollection
deriving DecidableEq, Repr

variable {α : Type} [DecidableEq α]

/-! ### Array: fixed-capacity array with explicit size -/

/-- The state of the Array class: the backing buffer _data (length is
the capacity, unused slots hold none for Python None) and the logical
size _size. -/
structure ArrayState (α : Type) where
  data : List (Option α)
  size : Nat
deriving DecidableEq, Repr

/-- Array(capacity): a buffer of capacity None slots and size 0. -/
def arrayInit (capacity : Nat) : ArrayState α :=
  ⟨List.replicate capacity none, 0⟩

/-- The shift loop of _make_room: for i in range(size, index, -1) the
slot i receives the value of slot i-1.  The loop counts down from size,
so it is structural recursion on the counter. -/
def makeRoomAux (idx : Nat) : List (Option α) → Nat → List (Option α)
  | d, 0 => d
  | d, i + 1 =>
    if idx < i + 1 then makeRoomAux idx (d.set (i + 1) (d.getD i none)) i else d

/-- The function _make_room applied at the current size. -/
def makeRoom (d : List (Option α)) (size idx : Nat) : List (Option α) :=
  makeRoomAux idx d size

/-- The shift loop of _close_gap: for i in range(index, size-1) the slot
i receives the value of slot i+1; the fuel counts the exact number of
iterations of the Python range. -/
def closeGapAux : Nat → List (Option α) → Nat → List (Option α)
  | 0, d, _ => d
  | fuel + 1, d, i => closeGapAux fuel (d.set i (d.getD (i + 1) none)) (i + 1)

/-- The function _close_gap: shift left then clear the last used slot.
It is only called after a bounds check, so size is at least 1. -/
def closeGap (d : List (Option α)) (idx size : Nat) : List (Option α) :=
  (closeGapAux (size - 1 - idx) d idx).set (size - 1) none

/-- Array.insert: full-capacity check, then bounds check 0 ≤ index ≤
size, then shift right and write.  Indices are Python ints. -/
def arrayInsert (s : ArrayState α) (index : Int) (v : α) :
    ArrayState α × Option Err :=
  if s.size = s.data.length then (s, some Err.capacityExceeded)
  else if ¬ (0 ≤ index ∧ index ≤ (s.size : Int)) then (s, some Err.indexOutOfRange)
  else
    (⟨(makeRoom s.data s.size index.toNat).set index.toNat (some v), s.size + 1⟩,
      none)

/-- Array.delete: bounds check 0 ≤ index < size, then shift left. -/
def arrayDelete (s : ArrayState α) (index : Int) : ArrayState α × Option Err :=
  if ¬ (0 ≤ index ∧ index < (s.size : Int)) then (s, some Err.indexOutOfRange)
  else (⟨closeGap s.data index.toNat s.size, s.size - 1⟩, none)

/-- Array.access: bounds check 0 ≤ index < size, then read.  The state
is returned unchanged: the Python method performs no writes. -/
def arrayAccess (s : ArrayState α) (index : Int) :
    ArrayState α × Option α × Option Err :=
  if ¬ (0 ≤ index ∧ index < (s.size : Int)) then (s, none, some Err.indexOutOfRange)
  else (s, s.data.getD index.toNat none, none)

/-! ### Stack: LIFO on a growable list, top at the end -/

/-- Stack.push: append at the end (the top). -/
def stackPush (s : List α) (v : α) : List α := s ++ [v]

/-- Stack.pop: explicit emptiness check, then remove and return the last
element. -/
def stackPop (s : List α) : List α × Option α × Option Err :=
  if s.isEmpty then (s, none, some Err.emptyCollection)
  else (s.dropLast, s.getLast?, none)

/-- Stack.peek: reads the element at Python index -1; on an empty list
that read itself raises IndexError, surfaced as the empty-collection
error. -/
def stackPeek (s : List α) : Option α × Option Err :=
  match s.getLast? with
  | none => (none, some Err.emptyCollection)
  | some v => (some v, none)

/-! ### Queue: fixed-capacity circular buffer -/

/-- The state of the Queue class: buffer _buf, indices _head and _tail,
logical size _size. -/
structure QueueState (α : Type) where
  buf : List (Option α)
  head : Nat
  tail : Nat
  size : Nat
deriving DecidableEq, Repr

/-- Queue(capacity): a buffer of capacity None slots, indices at 0. -/
def queueInit (capacity : Nat) : QueueState α :=
  ⟨List.replicate capacity none, 0, 0, 0⟩

/-- Queue.enqueue: full check, then write at _tail, advance _tail
modulo the capacity and grow _size. -/
def enqueue (q : QueueState α) (v : α) : QueueState α × Option Err :=
  if q.size = q.buf.length then (q, some Err.capacityExceeded)
  else
    (⟨q.buf.set q.tail (some v), q.head, (q.tail + 1) % q.buf.length, q.size + 1⟩,
      none)

/-- Queue.dequeue: empty check, then read the value at _head, clear that
slot to None, advance _head modulo the capacity and shrink _size. -/
def dequeue (q : QueueState α) : QueueState α × Option α × Option Err :=
  if q.size = 0 then (q, none, some Err.emptyCollection)
  else
    (⟨q.buf.set q.head none, (q.head + 1) % q.buf.length, q.tail, q.size - 1⟩,
      q.buf.getD q.head none, none)

/-! ### LinkedList: singly linked list as the list of its node values -/

/-- The walk-and-delete of LinkedList.delete for position ≥ 1: walk to
the node _node_at(pos-1) reaches (stopping as soon as the remaining
count is not positive, exactly as the Python while loop with its i <
pos test), then unlink its successor; falling off the end or a missing
successor is the IndexError.  On failure the original list is returned
unchanged, as the Python exception leaves the heap untouched. -/
def llDeleteAux : List α → Int → List α × Option Err
  | [], _ => ([], some Err.indexOutOfRange)
  | x :: xs, p =>
    if 0 < p then
      let r := llDeleteAux xs (p - 1)
      (x :: r.1, r.2)
    else
      match xs with
      | [] => (x :: xs, some Err.indexOutOfRange)
      | _ :: ys => (x :: ys, none)

/-- LinkedList.delete: position 0 pops the head (failing on an empty
list), any other position walks via _node_at(pos-1). -/
def llDelete (l : List α) (pos : Int) : List α × Option Err :=
  if pos = 0 then
    match l with
    | [] => (l, some Err.indexOutOfRange)
    | _ :: xs => (xs, none)
  else llDeleteAux l (pos - 1)

/-- The walk-and-insert of LinkedList.insert for position other than 0:
walk as _node_at(pos-1) does and splice the new node after the node
reached. -/
def llInsertAux (v : α) : List α → Int → List α × Option Err
  | [], _ => ([], some Err.indexOutOfRange)
  | x :: xs, p =>
    if 0 < p then
      let r := llInsertAux v xs (p - 1)
      (x :: r.1, r.2)
    else (x :: v :: xs, none)

/-- LinkedList.insert: position 0 prepends unconditionally, any other
position walks via _node_at(pos-1) and splices after the node reached. -/
def llInsert (l : List α) (pos : Int) (v : α) : List α × Option Err :=
  if pos = 0 then (v :: l, none) else llInsertAux v l (pos - 1)

/-! ### Matrix: rows of Arrays, get and set reach into the buffers -/

/-- The state of the Matrix class: the list of row Arrays. -/
structure MatrixState (α : Type) where
  rows : List (ArrayState α)
deriving DecidableEq, Repr

/-- Python list indexing for an index that may be negative: valid
exactly when -n ≤ i < n, negative values addressing from the end. -/
def pyIndex (n : Nat) (i : Int) : Option Nat :=
  if 0 ≤ i then (if i < (n : Int) then some i.toNat else none)
  else if -(n : Int) ≤ i then some (n - (-i).toNat) else none

/-- The buffer position a valid possibly-negative Python index denotes. -/
def normIdx (n : Nat) (i : Int) : Nat :=
  if 0 ≤ i then i.toNat else n - (-i).toNat

/-- Matrix.get: index the row list with r, then index that row Array
backing buffer _data with c, both with Python list indexing and without
any check against the Array logical size. -/
def matrixGet (m : MatrixState α) (r c : Int) : Option α × Option Err :=
  match pyIndex m.rows.length r with
  | none => (none, some Err.indexOutOfRange)
  | some ri =>
    match pyIndex (m.rows.getD ri ⟨[], 0⟩).data.length c with
    | none => (none, some Err.indexOutOfRange)
    | some ci => ((m.rows.getD ri ⟨[], 0⟩).data.getD ci none, none)

/-- Matrix.set: index the row list with r, then assign slot c of that
row backing buffer _data, with Python list indexing, leaving the row
logical size untouched. -/
def matrixSet (m : MatrixState α) (r c : Int) (v : α) :
    MatrixState α × Option Err :=
  match pyIndex m.rows.length r with
  | none => (m, some Err.indexOutOfRange)
  | some ri =>
    match pyIndex (m.rows.getD ri ⟨[], 0⟩).data.length c with
    | none => (m, some Err.indexOutOfRange)
    | some ci =>
      (⟨m.rows.set ri
          ⟨(m.rows.getD ri ⟨[], 0⟩).data.set ci (some v),
            (m.rows.getD ri ⟨[], 0⟩).size⟩⟩, none)

/-- The fill loop of the Matrix constructor: r.insert(c, z) for c in
range(cols). -/
def fillRowAux (z : α) : Nat → ArrayState α → Nat → ArrayState α
  | 0, s, _ => s
  | n + 1, s, c => fillRowAux z n (arrayInsert s (c : Int) z).1 (c + 1)

/-- Matrix(rows, cols): rows row Arrays of capacity cols, each filled by
the insert loop with the fill value (0 in the Python source). -/
def mkMatrix (rowsN cols : Nat) (z : α) : MatrixState α :=
  ⟨List.replicate rowsN (fillRowAux z cols (arrayInit cols) 0)⟩

/-- Well-formedness of a Matrix state: the invariant the constructor
establishes and set preserves, all rows filled to a common capacity. -/
def MatrixWF (m : MatrixState α) (rows cols : Nat) : Prop :=
  m.rows.length = rows ∧ ∀ row ∈ m.rows, row.data.length = cols ∧ row.size = cols

/-! ### Generic helper lemmas -/

/-- Reading a position other than the one just written is unchanged. -/
theorem getD_set_ne {β : Type} (l : List β) (d : β) {t p : Nat} (h : p ≠ t)
    (x : β) : (l.set t x).getD p d = l.getD p d := by
  by_cases hp : p < l.length
  · rw [List.getD_eq_getElem _ _ (by simpa using hp),
      List.getD_eq_getElem _ _ hp, List.getElem_set_ne (Ne.symm h)]
  · rw [List.getD_eq_default _ _ (by simp; omega), List.getD_eq_default _ _ (by omega)]

/-- Reading the position just written gives the written value. -/
theorem getD_set_self {β : Type} (l : List β) (d : β) {t : Nat}
    (ht : t < l.length) (x : β) : (l.set t x).getD t d = x := by
  rw [List.getD_eq_getElem _ _ (by simpa using ht)]
  simp [List.getElem_set]

/-- Adding the same offset before reducing modulo the capacity is
injective on residues below the capacity. -/
theorem mod_add_inj {cap h i j : Nat} (hi : i < cap) (hj : j < cap)
    (heq : (h + i) % cap = (h + j) % cap) : i = j := by
  have h1 : i % cap = j % cap := Nat.ModEq.add_left_cancel' h heq
  rwa [Nat.mod_eq_of_lt hi, Nat.mod_eq_of_lt hj] at h1

/-! ### Queue refinement -/

/-- A queue operation. -/
inductive QOp (α : Type) where
  | enq (v : α)
  | deq
deriving DecidableEq, Repr

/-- Run a sequence of operations against the circular-buffer Queue,
collecting the dequeued values; none as soon as an operation fails. -/
def runQueue : QueueState α → List (QOp α) → Option (List (Option α) × QueueState α)
  | q, [] => some ([], q)
  | q, QOp.enq v :: ops =>
    match enqueue q v with
    | (q1, none) => runQueue q1 ops
    | (_, some _) => none
  | q, QOp.deq :: ops =>
    match dequeue q with
    | (q1, val, none) => (runQueue q1 ops).map (fun r => (val :: r.1, r.2))
    | _ => none

/-- The simple unbounded list queue used as the reference model, run
under the same capacity discipline. -/
def runModel (cap : Nat) : List α → List (QOp α) → Option (List (Option α) × List α)
  | m, [] => some ([], m)
  | m, QOp.enq v :: ops =>
    if m.length < cap then runModel cap (m ++ [v]) ops else none
  | m, QOp.deq :: ops =>
    match m with
    | [] => none
    | x :: xs => (runModel cap xs ops).map (fun r => (some x :: r.1, r.2))

/-- The coupling invariant between a Queue state and the model list:
sizes agree, the tail is head plus size modulo capacity, the logical
window holds exactly the model values in order, and every buffer slot
outside the window is cleared to none. -/
def QueueInv (cap : Nat) (q : QueueState α) (model : List α) : Prop :=
  q.buf.length = cap ∧
  q.size = model.length ∧
  model.length ≤ cap ∧
  (0 < cap → q.head < cap) ∧
  q.tail = (q.head + q.size) % cap ∧
  (∀ i, i < q.size → q.buf.getD ((q.head + i) % cap) none = model[i]?) ∧
  (∀ j, j < cap → (∀ i, i < q.size → j ≠ (q.head + i) % cap) →
    q.buf.getD j none = none)

/-- The freshly constructed queue is coupled to the empty model. -/
theorem queueInv_init (cap : Nat) :
    QueueInv cap (queueInit cap : QueueState α) [] := by
  refine ⟨by simp [queueInit], rfl, by simp, fun _ => by simpa [queueInit], ?_, ?_, ?_⟩
  · simp [queueInit]
  · intro i hi
    simp [queueInit] at hi
  · intro j hj hout
    simp [queueInit, List.getD_eq_getElem?_getD, List.getElem?_replicate, hj]

/-- A legal enqueue succeeds and preserves the coupling invariant with
the value appended to the model. -/
theorem enqueue_step {cap : Nat} {q : QueueState α} {model : List α} (v : α)
    (hinv : QueueInv cap q model) (hnotfull : model.length < cap) :
    (enqueue q v).2 = none ∧ QueueInv cap (enqueue q v).1 (model ++ [v]) := by
  obtain ⟨hbuf, hsz, hle, hhead, htail, hcont, hclear⟩ := hinv
  have hcap : 0 < cap := by omega
  have hhead' : q.head < cap := hhead hcap
  have hfull : ¬ q.size = q.buf.length := by omega
  have htlt : q.tail < cap := by rw [htail]; exact Nat.mod_lt _ hcap
  unfold enqueue
  rw [if_neg hfull]
  refine ⟨rfl, by simpa using hbuf, by simpa using hsz,
    by simp only [List.length_append, List.length_cons, List.length_nil]; omega,
    fun _ => hhead', ?_, ?_, ?_⟩
  · simp only [hbuf, htail, Nat.mod_add_mod, hsz]
    try congr 1
    try omega
  · intro i hi
    simp only at hi ⊢
    rcases Nat.lt_or_ge i q.size with hilt | hige
    · have hne : (q.head + i) % cap ≠ q.tail := by
        rw [htail]
        intro hc
        have := mod_add_inj (by omega) (by omega) hc
        omega
      rw [getD_set_ne q.buf none hne, hcont i hilt,
        List.getElem?_append_left (by omega)]
    · have hieq : i = q.size := by omega
      subst hieq
      have hpos : (q.head + q.size) % cap = q.tail := htail.symm
      rw [hpos, getD_set_self q.buf none (by omega) (some v), hsz,
        List.getElem?_concat_length]
  · intro j hj hout
    simp only at hout
    have hjt : j ≠ q.tail := by
      have := hout q.size (by omega)
      rwa [← htail] at this
    rw [getD_set_ne q.buf none hjt]
    exact hclear j hj (fun i hi => hout i (by omega))

/-- A legal dequeue succeeds, returns the model head and preserves the
coupling invariant with the model tail. -/
theorem dequeue_step {cap : Nat} {q : QueueState α} {x : α} {xs : List α}
    (hinv : QueueInv cap q (x :: xs)) :
    (dequeue q).2.2 = none ∧ (dequeue q).2.1 = some x ∧
      QueueInv cap (dequeue q).1 xs := by
  obtain ⟨hbuf, hsz, hle, hhead, htail, hcont, hclear⟩ := hinv
  have hszpos : 0 < q.size := by simp at hsz; omega
  have hcap : 0 < cap := by omega
  have hhead' : q.head < cap := hhead hcap
  have hzero : ¬ q.size = 0 := by omega
  have hval : q.buf.getD q.head none = some x := by
    have h0 := hcont 0 (by omega)
    rw [Nat.add_zero, Nat.mod_eq_of_lt hhead'] at h0
    simpa using h0
  unfold dequeue
  rw [if_neg hzero]
  have hsz' : q.size = xs.length + 1 := by simpa using hsz
  refine ⟨rfl, hval, by simpa using hbuf, by simp only; omega, by omega,
    fun _ => by simp only [hbuf]; exact Nat.mod_lt _ hcap, ?_, ?_, ?_⟩
  · simp only [hbuf, Nat.mod_add_mod, htail]
    try congr 1
    try omega
  · intro i hi
    simp only at hi ⊢
    have hlt : 1 + i < cap := by omega
    have hpos : ((q.head + 1) % cap + i) % cap = (q.head + (1 + i)) % cap := by
      rw [Nat.mod_add_mod, Nat.add_assoc]
    have hne : (q.head + (1 + i)) % cap ≠ q.head := by
      intro hc
      have hc' : (q.head + (1 + i)) % cap = (q.head + 0) % cap := by
        rw [hc, Nat.add_zero, Nat.mod_eq_of_lt hhead']
      have := mod_add_inj hlt (by omega) hc'
      omega
    rw [hbuf, hpos, getD_set_ne q.buf none hne]
    have hc1 := hcont (1 + i) (by omega)
    rw [hc1]
    have h1i : (1 + i) = i + 1 := by omega
    rw [h1i, List.getElem?_cons_succ]
  · intro j hj hout
    simp only [hbuf] at hout
    by_cases hjh : j = q.head
    · subst hjh
      rw [getD_set_self q.buf none (by omega) none]
    · rw [getD_set_ne q.buf none hjh]
      refine hclear j hj ?_
      intro i hi
      rcases Nat.eq_zero_or_pos i with hi0 | hip
      · subst hi0
        rwa [Nat.add_zero, Nat.mod_eq_of_lt hhead']
      · have hieq2 : q.head + 1 + (i - 1) = q.head + i := by omega
        have hthis := hout (i - 1) (by omega)
        rw [Nat.mod_add_mod, hieq2] at hthis
        exact hthis

/-- Every legal run of the model is matched step by step by the
circular-buffer queue, with the invariant at the end. -/
theorem runQueue_refines (cap : Nat) :
    ∀ (ops : List (QOp α)) (q : QueueState α) (model : List α),
    QueueInv cap q model →
    ∀ outs m', runModel cap model ops = some (outs, m') →
      ∃ q', runQueue q ops = some (outs, q') ∧ QueueInv cap q' m' := by
  intro ops
  induction ops with
  | nil =>
    intro q model hinv outs m' hrun
    rw [runModel] at hrun
    have h1 : outs = [] ∧ m' = model := by
      have := Option.some.inj hrun
      exact ⟨congrArg Prod.fst this.symm, congrArg Prod.snd this.symm⟩
    obtain ⟨ho, hm⟩ := h1
    subst ho hm
    exact ⟨q, by rw [runQueue], hinv⟩
  | cons op ops ih =>
    intro q model hinv outs m' hrun
    cases op with
    | enq v =>
      simp only [runModel] at hrun
      split at hrun
      · next hlt =>
        obtain ⟨herr, hinv'⟩ := enqueue_step v hinv hlt
        rcases hE : enqueue q v with ⟨q1, e1⟩
        rw [hE] at herr hinv'
        simp only at herr hinv'
        subst herr
        obtain ⟨q', hq', hinvq⟩ := ih q1 (model ++ [v]) hinv' outs m' hrun
        refine ⟨q', ?_, hinvq⟩
        simp only [runQueue, hE]
        exact hq'
      · exact absurd hrun (by simp)
    | deq =>
      simp only [runModel] at hrun
      match model, hrun with
      | x :: xs, hrun =>
        obtain ⟨herr, hval, hinv'⟩ := dequeue_step hinv
        rcases hE : dequeue q with ⟨q1, val, e1⟩
        rw [hE] at herr hval hinv'
        simp only at herr hval hinv'
        subst herr hval
        simp only [Option.map_eq_some'] at hrun
        obtain ⟨r0, hr0, hout⟩ := hrun
        obtain ⟨q', hq', hinvq⟩ := ih q1 xs hinv' r0.1 r0.2 (by rw [hr0])
        have houts : some x :: r0.1 = outs := congrArg Prod.fst hout
        have hms : r0.2 = m' := congrArg Prod.snd hout
        refine ⟨q', ?_, ?_⟩
        · simp only [runQueue, hE, hq', Option.map_some']
          rw [houts]
        · rw [← hms]
          exact hinvq

/-! ### LinkedList: failure characterization and failure frame -/

/-- The walk-and-insert fails exactly when the walk falls off the end:
on the empty list, or when the remaining count reaches past the end. -/
theorem llInsertAux_err (v : α) : ∀ (l : List α) (p : Int),
    (llInsertAux v l p).2 =
      if l = [] ∨ (l.length : Int) ≤ p then some Err.indexOutOfRange else none := by
  intro l
  induction l with
  | nil =>
    intro p
    simp [llInsertAux]
  | cons x xs ih =>
    intro p
    simp only [llInsertAux]
    by_cases hp : 0 < p
    · rw [if_pos hp]
      simp only
      rw [ih (p - 1)]
      have hcond : (xs = [] ∨ (xs.length : Int) ≤ p - 1) ↔
          (x :: xs = [] ∨ ((x :: xs).length : Int) ≤ p) := by
        simp only [List.length_cons]
        constructor
        · rintro (he | hlen)
          · subst he
            right
            simp
            omega
          · right
            push_cast
            omega
        · rintro (he | hlen)
          · exact absurd he (by simp)
          · rcases eq_or_ne xs [] with he2 | he2
            · exact Or.inl he2
            · right
              push_cast at hlen ⊢
              omega
      rw [if_congr hcond rfl rfl]
    · rw [if_neg hp]
      simp only
      rw [if_neg]
      push_neg
      refine ⟨by simp, ?_⟩
      simp only [List.length_cons]
      push_cast
      omega

/-- The walk-and-delete fails exactly when the list is too short for
the clamped walk position plus its successor. -/
theorem llDeleteAux_err : ∀ (l : List α) (p : Int),
    (llDeleteAux l p).2 =
      if (l.length : Int) ≤ max p 0 + 1 then some Err.indexOutOfRange else none := by
  intro l
  induction l with
  | nil =>
    intro p
    simp only [llDeleteAux, List.length_nil]
    rw [if_pos (by omega)]
  | cons x xs ih =>
    intro p
    simp only [llDeleteAux]
    by_cases hp : 0 < p
    · rw [if_pos hp]
      simp only
      rw [ih (p - 1)]
      have hcond : ((xs.length : Int) ≤ max (p - 1) 0 + 1) ↔
          (((x :: xs).length : Int) ≤ max p 0 + 1) := by
        simp only [List.length_cons]
        push_cast
        omega
      rw [if_congr hcond rfl rfl]
    · rw [if_neg hp]
      cases xs with
      | nil =>
        simp only [List.length_cons, List.length_nil]
        rw [if_pos (by omega)]
      | cons y ys =>
        simp only [List.length_cons]
        rw [if_neg (by push_cast; omega)]

/-- A failing walk-and-insert leaves the list unchanged. -/
theorem llInsertAux_fail_frame (v : α) : ∀ (l : List α) (p : Int),
    (llInsertAux v l p).2.isSome → (llInsertAux v l p).1 = l := by
  intro l
  induction l with
  | nil =>
    intro p _
    rfl
  | cons x xs ih =>
    intro p h
    simp only [llInsertAux] at h ⊢
    by_cases hp : 0 < p
    · rw [if_pos hp] at h ⊢
      simp only at h ⊢
      rw [ih (p - 1) h]
    · rw [if_neg hp] at h
      simp at h

/-- A failing walk-and-delete leaves the list unchanged. -/
theorem llDeleteAux_fail_frame : ∀ (l : List α) (p : Int),
    (llDeleteAux l p).2.isSome → (llDeleteAux l p).1 = l := by
  intro l
  induction l with
  | nil =>
    intro p _
    rfl
  | cons x xs ih =>
    intro p h
    simp only [llDeleteAux] at h ⊢
    by_cases hp : 0 < p
    · rw [if_pos hp] at h ⊢
      simp only at h ⊢
      rw [ih (p - 1) h]
    · rw [if_neg hp] at h ⊢
      cases xs with
      | nil => rfl
      | cons y ys => simp at h

/-! ### Matrix index computation -/

/-- A Python index in the valid range -n ≤ i < n resolves to its
normalized buffer position, which is below n. -/
theorem pyIndex_in_range (n : Nat) (i : Int) (h1 : -(n : Int) ≤ i)
    (h2 : i < (n : Int)) :
    pyIndex n i = some (normIdx n i) ∧ normIdx n i < n := by
  unfold pyIndex normIdx
  by_cases h : 0 ≤ i
  · rw [if_pos h, if_pos h2, if_pos h]
    exact ⟨rfl, by omega⟩
  · rw [if_neg h, if_pos h1, if_neg h]
    exact ⟨rfl, by omega⟩

/-- Matrix.get on valid possibly-negative indices reads the normalized
slot of the row backing buffer, with no error. -/
theorem matrixGet_eq (m : MatrixState α) (rows cols : Nat)
    (hwf : MatrixWF m rows cols) (r c : Int)
    (hr1 : -(rows : Int) ≤ r) (hr2 : r < (rows : Int))
    (hc1 : -(cols : Int) ≤ c) (hc2 : c < (cols : Int)) :
    matrixGet m r c =
      ((m.rows.getD (normIdx rows r) ⟨[], 0⟩).data.getD (normIdx cols c) none,
        none) := by
  obtain ⟨hlenr, hrows⟩ := hwf
  have hr := pyIndex_in_range rows r hr1 hr2
  have hri : normIdx rows r < m.rows.length := by rw [hlenr]; exact hr.2
  have hrowmem : m.rows.getD (normIdx rows r) ⟨[], 0⟩ ∈ m.rows := by
    rw [List.getD_eq_getElem _ _ hri]
    exact List.getElem_mem hri
  have hrowlen : (m.rows.getD (normIdx rows r) ⟨[], 0⟩).data.length = cols :=
    (hrows _ hrowmem).1
  have hc := pyIndex_in_range cols c hc1 hc2
  unfold matrixGet
  simp only [hlenr, hr.1]
  simp only [hrowlen, hc.1]

/-- Matrix.set on valid possibly-negative indices writes the normalized
slot of the row backing buffer directly, leaving the row logical size
unchanged, with no error. -/
theorem matrixSet_eq (m : MatrixState α) (rows cols : Nat) (v : α)
    (hwf : MatrixWF m rows cols) (r c : Int)
    (hr1 : -(rows : Int) ≤ r) (hr2 : r < (rows : Int))
    (hc1 : -(cols : Int) ≤ c) (hc2 : c < (cols : Int)) :
    matrixSet m r c v =
      (⟨m.rows.set (normIdx rows r)
          ⟨(m.rows.getD (normIdx rows r) ⟨[], 0⟩).data.set (normIdx cols c)
              (some v),
            (m.rows.getD (normIdx rows r) ⟨[], 0⟩).size⟩⟩, none) := by
  obtain ⟨hlenr, hrows⟩ := hwf
  have hr := pyIndex_in_range rows r hr1 hr2
  have hri : normIdx rows r < m.rows.length := by rw [hlenr]; exact hr.2
  have hrowmem : m.rows.getD (normIdx rows r) ⟨[], 0⟩ ∈ m.rows := by
    rw [List.getD_eq_getElem _ _ hri]
    exact List.getElem_mem hri
  have hrowlen : (m.rows.getD (normIdx rows r) ⟨[], 0⟩).data.length = cols :=
    (hrows _ hrowmem).1
  have hc := pyIndex_in_range cols c hc1 hc2
  unfold matrixSet
  simp only [hlenr, hr.1]
  simp only [hrowlen, hc.1]

/-- Array.access refuses every negative index outright: the contrast
that shows Matrix.get and Matrix.set bypass the bounds-checked Array
operations. -/
theorem arrayAccess_neg (s : ArrayState α) (i : Int) (hi : i < 0) :
    (arrayAccess s i).2.2 = some Err.indexOutOfRange := by
  unfold arrayAccess
  rw [if_pos (fun h => absurd h.1 (by omega))]

/-- C5: for every capacity and every legal operation sequence (enqueue
never on a full queue, dequeue never on an empty one), the circular
buffer Queue produces exactly the outputs of the simple unbounded list
queue model, also when the sequence is longer than the capacity and the
indices wrap around, and the coupling invariant — which includes that
every buffer slot outside the logical window [head, head+size) is
cleared to none — holds after every enqueue and every dequeue and at
the end of the run. -/
theorem C5_queue_refinement (cap : Nat) (ops : List (QOp α))
    (outs : List (Option α)) (m' : List α)
    (hrun : runModel cap [] ops = some (outs, m')) :
    (∃ q', runQueue (queueInit cap : QueueState α) ops = some (outs, q') ∧
      QueueInv cap q' m') ∧
    (∀ (q : QueueState α) (model : List α) (v : α), QueueInv cap q model →
      model.length < cap →
      (enqueue q v).2 = none ∧ QueueInv cap (enqueue q v).1 (model ++ [v])) ∧
    (∀ (q : QueueState α) (x : α) (xs : List α), QueueInv cap q (x :: xs) →
      (dequeue q).2.2 = none ∧ (dequeue q).2.1 = some x ∧
        QueueInv cap (dequeue q).1 xs) :=
  ⟨runQueue_refines cap ops (queueInit cap) [] (queueInv_init cap) outs m' hrun,
    fun _ _ v hinv hlt => enqueue_step v hinv hlt,
    fun _ _ _ hinv => dequeue_step hinv⟩

/-- Witness for C5: capacity 2, six operations, so the buffer wraps. -/
theorem C5_queue_refinement_witness :
    runModel 2 ([] : List Nat)
        [QOp.enq 1, QOp.enq 2, QOp.deq, QOp.enq 3, QOp.deq, QOp.deq] =
      some ([some 1, some 2, some 3], []) ∧
    ((∃ q', runQueue (queueInit 2 : QueueState Nat)
          [QOp.enq 1, QOp.enq 2, QOp.deq, QOp.enq 3, QOp.deq, QOp.deq] =
            some ([some 1, some 2, some 3], q') ∧
        QueueInv 2 q' []) ∧
      (∀ (q : QueueState Nat) (model : List Nat) (v : Nat), QueueInv 2 q model →
        model.length < 2 →
        (enqueue q v).2 = none ∧ QueueInv 2 (enqueue q v).1 (model ++ [v])) ∧
      (∀ (q : QueueState Nat) (x : Nat) (xs : List Nat), QueueInv 2 q (x :: xs) →
        (dequeue q).2.2 = none ∧ (dequeue q).2.1 = some x ∧
          QueueInv 2 (dequeue q).1 xs)) :=
  ⟨by decide,
    C5_queue_refinement 2 [QOp.enq 1, QOp.enq 2, QOp.deq, QOp.enq 3, QOp.deq, QOp.deq]
      [some 1, some 2, some 3] [] (by decide)⟩

/-- C6: every failing container operation reports its error with the
container state exactly as it was before the call: Array insert, delete
and access, Queue enqueue and dequeue, Stack pop, LinkedList insert and
delete.  Array.access performs no writes at all, so its state component
is always the input state. -/
theorem C6_failures_no_side_effects :
    (∀ (s : ArrayState α) (i : Int) (v : α),
      (arrayInsert s i v).2.isSome → (arrayInsert s i v).1 = s) ∧
    (∀ (s : ArrayState α) (i : Int),
      (arrayDelete s i).2.isSome → (arrayDelete s i).1 = s) ∧
    (∀ (s : ArrayState α) (i : Int), (arrayAccess s i).1 = s) ∧
    (∀ (q : QueueState α) (v : α), (enqueue q v).2.isSome → (enqueue q v).1 = q) ∧
    (∀ (q : QueueState α), (dequeue q).2.2.isSome → (dequeue q).1 = q) ∧
    (∀ (s : List α), (stackPop s).2.2.isSome → (stackPop s).1 = s) ∧
    (∀ (l : List α) (pos : Int) (v : α),
      (llInsert l pos v).2.isSome → (llInsert l pos v).1 = l) ∧
    (∀ (l : List α) (pos : Int),
      (llDelete l pos).2.isSome → (llDelete l pos).1 = l) := by
  refine ⟨?_, ?_, ?_, ?_, ?_, ?_, ?_, ?_⟩
  · intro s i v
    unfold arrayInsert
    split
    · intro _
      rfl
    · split
      · intro _
        rfl
      · intro h
        simp at h
  · intro s i
    unfold arrayDelete
    split
    · intro _
      rfl
    · intro h
      simp at h
  · intro s i
    unfold arrayAccess
    split
    · rfl
    · rfl
  · intro q v
    unfold enqueue
    split
    · intro _
      rfl
    · intro h
      simp at h
  · intro q
    unfold dequeue
    split
    · intro _
      rfl
    · intro h
      simp at h
  · intro s
    unfold stackPop
    split
    · intro _
      rfl
    · intro h
      simp at h
  · intro l pos v
    unfold llInsert
    split
    · intro h
      simp at h
    · exact llInsertAux_fail_frame v l (pos - 1)
  · intro l pos
    unfold llDelete
    split
    · cases l with
      | nil =>
        intro _
        rfl
      | cons x xs =>
        intro h
        simp at h
    · exact llDeleteAux_fail_frame l (pos - 1)

/-- Witness for C6: inserting into a full Array fails and leaves the
state unchanged. -/
theorem C6_failures_no_side_effects_witness :
    (arrayInsert (⟨[some 1], 1⟩ : ArrayState Nat) 0 5).2.isSome ∧
      (arrayInsert (⟨[some 1], 1⟩ : ArrayState Nat) 0 5).1 = ⟨[some 1], 1⟩ :=
  ⟨by decide,
    (@C6_failures_no_side_effects Nat instDecidableEqNat).1 ⟨[some 1], 1⟩ 0 5 (by decide)⟩

/-- C7 counterexample: the claimed biconditional — insert fails exactly
when pos is outside [0, n] and delete exactly when pos is outside
[0, n-1] — is false for negative positions on nonempty lists: on the
one-element list [10], insert(-1, 99) does not fail (it splices after
the head), and on [0, 1, 2, 3], delete(-1) does not fail (it removes
the element at position 1). -/
theorem C7_counterexample :
    (llInsert ([10] : List Nat) (-1) 99).2 = none ∧
      (llInsert ([10] : List Nat) (-1) 99).1 = [10, 99] ∧
      (llDelete ([0, 1, 2, 3] : List Nat) (-1)).2 = none ∧
      (llDelete ([0, 1, 2, 3] : List Nat) (-1)).1 = [0, 2, 3] := by
  refine ⟨?_, ?_, ?_, ?_⟩ <;> decide

/-- C7 amended: for nonnegative positions the claimed characterization
holds — insert fails (with IndexOutOfRange) exactly when pos > n and
delete exactly when pos ≥ n — while for negative positions insert
fails exactly on the empty list and delete exactly when the list has at
most one node; each operation succeeds in precisely the remaining
cases. -/
theorem C7_amended_bounds :
    (∀ (l : List α) (pos : Int) (v : α),
      ((llInsert l pos v).2 = some Err.indexOutOfRange ↔
        (0 < pos ∧ (l.length : Int) < pos) ∨ (pos < 0 ∧ l = [])) ∧
      ((llInsert l pos v).2 = none ↔
        ¬ ((0 < pos ∧ (l.length : Int) < pos) ∨ (pos < 0 ∧ l = [])))) ∧
    (∀ (l : List α) (pos : Int),
      ((llDelete l pos).2 = some Err.indexOutOfRange ↔
        (0 ≤ pos ∧ (l.length : Int) ≤ pos) ∨ (pos < 0 ∧ l.length ≤ 1)) ∧
      ((llDelete l pos).2 = none ↔
        ¬ ((0 ≤ pos ∧ (l.length : Int) ≤ pos) ∨ (pos < 0 ∧ l.length ≤ 1)))) := by
  constructor
  · intro l pos v
    have hkey : (llInsert l pos v).2 =
        if (0 < pos ∧ (l.length : Int) < pos) ∨ (pos < 0 ∧ l = []) then
          some Err.indexOutOfRange else none := by
      unfold llInsert
      split
      · next hp0 =>
        subst hp0
        rw [if_neg]
        rintro (⟨h1, _⟩ | ⟨h1, _⟩) <;> omega
      · next hp0 =>
        rw [llInsertAux_err]
        have hcond : (l = [] ∨ (l.length : Int) ≤ pos - 1) ↔
            ((0 < pos ∧ (l.length : Int) < pos) ∨ (pos < 0 ∧ l = [])) := by
          constructor
          · rintro (hnil | hlen)
            · rcases lt_or_gt_of_ne hp0 with hneg | hposz
              · exact Or.inr ⟨hneg, hnil⟩
              · subst hnil
                exact Or.inl ⟨hposz, by simpa using hposz⟩
            · left
              constructor
              · rcases lt_or_gt_of_ne hp0 with hneg | hposz
                · have h0 : (0 : Int) ≤ l.length := Int.ofNat_nonneg _
                  omega
                · exact hposz
              · omega
          · rintro (⟨hp, hlen⟩ | ⟨hn, hnil⟩)
            · right
              omega
            · exact Or.inl hnil
        rw [if_congr hcond rfl rfl]
    constructor
    · rw [hkey]
      split
      · next hcnd => simp [hcnd]
      · next hcnd => simp [hcnd]
    · rw [hkey]
      split
      · next hcnd => simp [hcnd]
      · next hcnd => simp [hcnd]
  · intro l pos
    have hkey : (llDelete l pos).2 =
        if (0 ≤ pos ∧ (l.length : Int) ≤ pos) ∨ (pos < 0 ∧ l.length ≤ 1) then
          some Err.indexOutOfRange else none := by
      unfold llDelete
      split
      · next hp0 =>
        subst hp0
        cases l with
        | nil =>
          rw [if_pos (Or.inl ⟨le_refl 0, by simp⟩)]
        | cons x xs =>
          rw [if_neg]
          simp only [List.length_cons]
          rintro (⟨_, h2⟩ | ⟨h1, _⟩)
          · have h0 : (0 : Int) ≤ xs.length := Int.ofNat_nonneg _
            push_cast at h2
            omega
          · omega
      · next hp0 =>
        rw [llDeleteAux_err]
        have hcond : ((l.length : Int) ≤ max (pos - 1) 0 + 1) ↔
            ((0 ≤ pos ∧ (l.length : Int) ≤ pos) ∨ (pos < 0 ∧ l.length ≤ 1)) := by
          constructor
          · intro hlen
            rcases lt_or_gt_of_ne hp0 with hneg | hposz
            · right
              refine ⟨hneg, ?_⟩
              omega
            · left
              exact ⟨by omega, by omega⟩
          · rintro (⟨hp, hlen⟩ | ⟨hn, hlen⟩)
            · omega
            · omega
        rw [if_congr hcond rfl rfl]
    constructor
    · rw [hkey]
      split
      · next hcnd => simp [hcnd]
      · next hcnd => simp [hcnd]
    · rw [hkey]
      split
      · next hcnd => simp [hcnd]
      · next hcnd => simp [hcnd]

/-- C8: pop and peek on an empty Stack both fail with the
empty-collection error; on any stack, after pushing v, peek returns v
without changing the stack and pop removes and returns v; and in the
concrete scenario push a, b, c, d, pop returns d and then peek returns
c. -/
theorem C8_stack_ops :
    (stackPop ([] : List α)).2.2 = some Err.emptyCollection ∧
    (stackPeek ([] : List α)).2 = some Err.emptyCollection ∧
    (∀ (s : List α) (v : α),
      stackPeek (stackPush s v) = (some v, none) ∧
      stackPop (stackPush s v) = (s, some v, none)) ∧
    ((stackPop (stackPush (stackPush (stackPush (stackPush ([] : List Char) 'a')
        'b') 'c') 'd')).2.1 = some 'd' ∧
      (stackPeek (stackPop (stackPush (stackPush (stackPush (stackPush
        ([] : List Char) 'a') 'b') 'c') 'd')).1).1 = some 'c') := by
  refine ⟨rfl, rfl, ?_, by decide, by decide⟩
  intro s v
  constructor
  · unfold stackPeek stackPush
    rw [List.getLast?_concat]
  · unfold stackPop stackPush
    rw [if_neg (by simp), List.getLast?_concat, List.dropLast_concat]

/-- C10: for every well-formed Matrix and indices in the Python-valid
ranges -rows ≤ r < rows and -cols ≤ c < cols (so including negative
indices, which address rows and columns from the end), get succeeds and
reads the row backing buffer directly, set succeeds and writes the row
backing buffer directly leaving the row logical size unchanged, and in
contrast the bounds-checked Array.access rejects every negative index,
which is exactly the bypass of the Array operations. -/
theorem C10_matrix_bypass (m : MatrixState α) (rows cols : Nat) (v : α)
    (hwf : MatrixWF m rows cols) (r c : Int)
    (hr1 : -(rows : Int) ≤ r) (hr2 : r < (rows : Int))
    (hc1 : -(cols : Int) ≤ c) (hc2 : c < (cols : Int)) :
    matrixGet m r c =
      ((m.rows.getD (normIdx rows r) ⟨[], 0⟩).data.getD (normIdx cols c) none,
        none) ∧
    matrixSet m r c v =
      (⟨m.rows.set (normIdx rows r)
          ⟨(m.rows.getD (normIdx rows r) ⟨[], 0⟩).data.set (normIdx cols c)
              (some v),
            (m.rows.getD (normIdx rows r) ⟨[], 0⟩).size⟩⟩, none) ∧
    (∀ (s : ArrayState α) (i : Int), i < 0 →
      (arrayAccess s i).2.2 = some Err.indexOutOfRange) :=
  ⟨matrixGet_eq m rows cols hwf r c hr1 hr2 hc1 hc2,
    matrixSet_eq m rows cols v hwf r c hr1 hr2 hc1 hc2,
    fun s i hi => arrayAccess_neg s i hi⟩

/-- Witness for C10 on the freshly built 2 by 3 zero matrix at the
negative indices r = -2 and c = -1. -/
theorem C10_matrix_bypass_witness :
    MatrixWF (mkMatrix 2 3 (0 : Nat)) 2 3 ∧
      -(2 : Int) ≤ -2 ∧ (-2 : Int) < 2 ∧ -(3 : Int) ≤ -1 ∧ (-1 : Int) < 3 ∧
      (matrixGet (mkMatrix 2 3 (0 : Nat)) (-2) (-1) =
        (((mkMatrix 2 3 (0 : Nat)).rows.getD (normIdx 2 (-2)) ⟨[], 0⟩).data.getD
            (normIdx 3 (-1)) none, none) ∧
      matrixSet (mkMatrix 2 3 (0 : Nat)) (-2) (-1) 7 =
        (⟨(mkMatrix 2 3 (0 : Nat)).rows.set (normIdx 2 (-2))
            ⟨((mkMatrix 2 3 (0 : Nat)).rows.getD (normIdx 2 (-2)) ⟨[], 0⟩).data.set
                (normIdx 3 (-1)) (some 7),
              ((mkMatrix 2 3 (0 : Nat)).rows.getD (normIdx 2 (-2)) ⟨[], 0⟩).size⟩⟩,
          none) ∧
      (∀ (s : ArrayState Nat) (i : Int), i < 0 →
        (arrayAccess s i).2.2 = some Err.indexOutOfRange)) :=
  ⟨by unfold MatrixWF; decide, by decide, by decide, by decide, by decide,
    C10_matrix_bypass (mkMatrix 2 3 (0 : Nat)) 2 3 7
      (by unfold MatrixWF; decide) (-2) (-1) (by decide) (by decide) (by decide)
      (by decide)⟩

end DS
